import Mathlib

/-!
# Verification of the ehrQL / databuilder query compilation pipeline

This file gives a shallow embedding, in Lean 4, of the parts of the
opensafely-core repository (the `databuilder`/`ehrql` code base) that the
specification's claims are about, together with proofs or refutations of
those claims.

Each section embeds one component, translated from the Python source:

* `DateOps`    — MSSQL date arithmetic (`ehrql/query_engines/mssql.py`);
* `SqlNull`    — null-guarded division (`MSSQLQueryEngine.truedivide` and the
                 generic `lhs / NULLIF(rhs, 0)` strategy);
* `TypeMatch`  — the runtime type matcher (`databuilder/utils/typing_utils.py`);
* `ExecUtils`  — the batched result reader and the retrying executor
                 (`ehrql/utils/sqlalchemy_exec_utils.py`, modelled from the
                 spec and pinned by `tests/unit/utils/test_sqlalchemy_exec_utils.py`);
* `QM`         — the query-model node graph, the surface-language operators
                 (`databuilder/query_language.py`) and the sort-stabilisation
                 transform (`databuilder/query_model_transforms.py`);
* `Scheduler`  — the temporary-table scheduler
                 (`databuilder/sqlalchemy_utils.py::get_setup_and_cleanup_queries`).
-/

namespace DateOps

/-- A calendar date, as handled by the MSSQL engine's date functions.
Fields mirror the `YEAR`/`MONTH`/`DAY` parts used by
`MSSQLQueryEngine.get_date_part`. -/
structure Date where
  year : Int
  month : Int
  day : Int
deriving DecidableEq, Repr

/-- Gregorian leap-year rule (the rule MSSQL's calendar functions follow). -/
def isLeapYear (y : Int) : Bool :=
  y % 4 == 0 && (y % 100 != 0 || y % 400 == 0)

/-- Number of days in a month of a given year. -/
def daysInMonth (y m : Int) : Int :=
  if m = 2 then (if isLeapYear y then 29 else 28)
  else if m = 4 ∨ m = 6 ∨ m = 9 ∨ m = 11 then 30
  else 31

/-- A date is valid when its month is in 1..12 and its day fits the month. -/
def Date.Valid (d : Date) : Prop :=
  1 ≤ d.month ∧ d.month ≤ 12 ∧ 1 ≤ d.day ∧ d.day ≤ daysInMonth d.year d.month

instance (d : Date) : Decidable d.Valid := by
  unfold Date.Valid; infer_instance

/-- `DATEADD(month, n, date)` as MSSQL computes it: shift the month, and clip
a day-of-month overflow to the last day of the result month (this clipping
behaviour of the builtin is documented in the comment inside
`MSSQLQueryEngine.date_add_months`). -/
def dateaddMonthClip (d : Date) (n : Int) : Date :=
  let total := d.year * 12 + (d.month - 1) + n
  let y := total.ediv 12
  let m := total.emod 12 + 1
  { year := y, month := m, day := min d.day (daysInMonth y m) }

/-- The successor day of a date in the Gregorian calendar. -/
def nextDay (d : Date) : Date :=
  if d.day < daysInMonth d.year d.month then ⟨d.year, d.month, d.day + 1⟩
  else if d.month < 12 then ⟨d.year, d.month + 1, 1⟩
  else ⟨d.year + 1, 1, 1⟩

/-- `MSSQLQueryEngine.date_add_days` — `DATEADD(day, n, date)`.  The engine's
month-arithmetic correction only ever adds 0 or 1 days, so a natural-number
day count suffices for the embedding. -/
def date_add_days (d : Date) (n : Nat) : Date :=
  nextDay^[n] d

/-- `MSSQLQueryEngine.get_date_part(date, "DAY")`. -/
def getDayPart (d : Date) : Int := d.day

/-- `MSSQLQueryEngine.date_add_months`: first `DATEADD(month, ...)` (which
clips day-of-month overflow to the month end), then a `CASE`-computed
correction of one extra day whenever the day part shrank, i.e. whenever the
builtin clipped.  The net effect is that overflow rolls over to the first of
the following month. -/
def date_add_months (d : Date) (n : Int) : Date :=
  let newDate := dateaddMonthClip d n
  let correction : Nat := if getDayPart newDate < getDayPart d then 1 else 0
  date_add_days newDate correction

/-- The first day of the month following month `m` of year `y`. -/
def firstOfNextMonth (y m : Int) : Date :=
  if m < 12 then ⟨y, m + 1, 1⟩ else ⟨y + 1, 1, 1⟩

/-- C1 (refutation): `date_add_months` does not clip day-of-month overflow to
the last day of the result month; both examples given by the claim
(`2020-01-31 + 1 month = 2020-02-29` and `2021-01-31 + 1 month = 2021-02-28`)
fail — the engine rolls the overflow over to the first of the following
month. -/
theorem date_add_months_clip_examples_fail :
    date_add_months ⟨2020, 1, 31⟩ 1 = ⟨2020, 3, 1⟩ ∧
    date_add_months ⟨2021, 1, 31⟩ 1 = ⟨2021, 3, 1⟩ ∧
    ¬ (date_add_months ⟨2020, 1, 31⟩ 1 = ⟨2020, 2, 29⟩ ∧
       date_add_months ⟨2021, 1, 31⟩ 1 = ⟨2021, 2, 28⟩) := by
  refine ⟨by decide, by decide, ?_⟩
  intro h
  exact absurd h.1 (by decide)

/-- C1 (amended): for every date `d` and integer `n`, `date_add_months`
shifts the month and, when the day of month overflows the result month,
rolls over to the *first day of the following month* (rather than clipping
to the last day of the result month); a non-overflowing day is kept
unchanged. -/
theorem date_add_months_rolls_over (d : Date) (n : Int) :
    date_add_months d n =
      (let total := d.year * 12 + (d.month - 1) + n
       let y := total.ediv 12
       let m := total.emod 12 + 1
       if d.day ≤ daysInMonth y m then ⟨y, m, d.day⟩ else firstOfNextMonth y m) := by
  simp only [date_add_months, dateaddMonthClip, getDayPart, firstOfNextMonth]
  set y := (d.year * 12 + (d.month - 1) + n).ediv 12 with hy
  set m := (d.year * 12 + (d.month - 1) + n).emod 12 + 1 with hm
  by_cases hle : d.day ≤ daysInMonth y m
  · simp only [hle, if_true, min_eq_left hle, lt_irrefl, if_false]
    simp [date_add_days]
  · have hlt : daysInMonth y m < d.day := lt_of_not_le hle
    simp only [hle, if_false, min_eq_right (le_of_lt hlt), hlt, if_true]
    simp only [date_add_days, Function.iterate_one, nextDay]
    simp

end DateOps

namespace SqlNull

/-- A nullable SQL numeric value: `none` is SQL `NULL`.  Exact rationals
stand in for the engine's numeric columns. -/
abbrev SqlVal := Option ℚ

/-- SQL `NULLIF(x, y)`: `NULL` when `x = y` (and `NULL` stays `NULL`). -/
def nullif (x : SqlVal) (y : ℚ) : SqlVal :=
  x.bind fun v => if v = y then none else some v

/-- SQL division with `NULL` propagation.  A zero denominator is a database
error, which the engines avoid by construction; the embedding totalises that
unreachable branch with `none` being *not* used: it is mapped through ℚ's
division (`v / 0 = 0` in Lean), and `truedivide_nonzero_denominator` below
shows the guarded operators never reach it. -/
def sqlDiv (a b : SqlVal) : SqlVal :=
  match a, b with
  | some x, some y => some (x / y)
  | _, _ => none

/-- `MSSQLQueryEngine.truedivide(lhs, rhs)` — `lhs / NULLIF(rhs, 0.0)`.
This is also the generic strategy the spec prescribes for every dialect. -/
def truedivide (lhs rhs : SqlVal) : SqlVal :=
  sqlDiv lhs (nullif rhs 0)

/-- Modelled from the spec: the `FloorDivide` lowering is not in the source
tree (it lives in the base SQL engine); per the spec it is the same
null-guarded division with `FLOOR` applied on top. -/
def floordivide (lhs rhs : SqlVal) : SqlVal :=
  (sqlDiv lhs (nullif rhs 0)).map fun q => (⌊q⌋ : ℚ)

/-- The `NULLIF` guard means the raw division never sees a zero
denominator. -/
theorem truedivide_nonzero_denominator (rhs : SqlVal) :
    nullif rhs 0 ≠ some 0 := by
  cases rhs with
  | none => simp [nullif]
  | some v => by_cases hv : v = 0 <;> simp [nullif, hv]

/-- C7: `TrueDivide` and `FloorDivide` yield `NULL` for every numerator when
the denominator is zero (and, null propagating, also when it is `NULL`). -/
theorem division_by_zero_is_null (lhs : SqlVal) :
    truedivide lhs (some 0) = none ∧ floordivide lhs (some 0) = none := by
  constructor <;> cases lhs <;> simp [truedivide, floordivide, nullif, sqlDiv]

end SqlNull

namespace TypeMatch

/-- The plain Python classes the query model's type specifications use. -/
inductive PyClass
  | bool | int | float | str | date | object | set | dict
deriving DecidableEq, Repr

/-- Python's builtin `issubclass` on this universe: reflexive, everything is
a subclass of `object`, and — in Python's own hierarchy — `bool` *is* a
subclass of `int` (the special case `type_matches` works around). -/
def pySubclass (a b : PyClass) : Bool :=
  a == b || b == .object || (a == .bool && b == .int)

mutual

/-- A runtime type specification (`typing_utils`): `Any`, a type variable
with optional constraints, a plain class, a parametric container such as
`Set[T]`/`Mapping[K, V]`, or a `Union`. -/
inductive TypeSpec
  | any
  | tvar (id : Nat) (constraints : TypeList)
  | cls (c : PyClass)
  | container (origin : PyClass) (args : TypeList)
  | union (args : TypeList)
deriving DecidableEq, Repr

/-- A list of type specifications (constraint lists, container arguments). -/
inductive TypeList
  | nil
  | cons (head : TypeSpec) (tail : TypeList)
deriving DecidableEq, Repr

end

/-- Whether a `TypeList` is empty. -/
def TypeList.isEmpty : TypeList → Bool
  | .nil => true
  | .cons _ _ => false

/-- Concatenation of `TypeList`s. -/
def TypeList.append : TypeList → TypeList → TypeList
  | .nil, ys => ys
  | .cons x xs, ys => .cons x (xs.append ys)

/-- Length of a `TypeList`. -/
def TypeList.length : TypeList → Nat
  | .nil => 0
  | .cons _ xs => xs.length + 1

/-- The mutable `typevar_context` dict, as an insertion-ordered
association list threaded through the matcher. -/
abbrev Ctx := List (Nat × TypeSpec)

/-- `typevar_context[id]` lookup. -/
def ctxGet (ctx : Ctx) (id : Nat) : Option TypeSpec :=
  match ctx with
  | [] => none
  | (k, v) :: rest => if k = id then some v else ctxGet rest id

/-- `typevar_context[id] = v`: overwrite in place, or append a new binding. -/
def ctxSet (ctx : Ctx) (id : Nat) (v : TypeSpec) : Ctx :=
  match ctx with
  | [] => [(id, v)]
  | (k, w) :: rest => if k = id then (k, v) :: rest else (k, w) :: ctxSet rest id v

/-- `typing.get_origin` restricted to class origins (`set`, `dict`, ...);
`None` for plain classes, `Any`, and type variables. -/
def getOriginCls : TypeSpec → Option PyClass
  | .container o _ => some o
  | _ => none

/-- The recursive call `type_matches(spec_origin, target_spec_origin, ctx)`
inlined: the target origin is always a plain class there, so only the
plain-class branch of the matcher can run.  A `None` spec origin fails the
`spec is not None` guard (and a special-form origin such as `typing.Union`
would raise inside `issubclass`; the embedding totalises that as a failed
match). -/
def originMatches (so : Option PyClass) (t : PyClass) : Bool :=
  match so with
  | none => false
  | some s => !(s == .bool && t == .int) && pySubclass s t

mutual

/-- `typing_utils.type_matches(spec, target_spec, typevar_context)`,
returning the result together with the (mutated) context. -/
def typeMatches (spec target : TypeSpec) (ctx : Ctx) : Bool × Ctx :=
  match target with
  | .tvar id constraints =>
      -- check the constraints, if any (mutations from failed attempts stick)
      let r := if constraints.isEmpty then (true, ctx)
               else typeMatchesAny spec constraints ctx
      if r.1 then
        match ctxGet r.2 id with
        | some bound =>
            if bound ≠ TypeSpec.any then
              if spec ≠ TypeSpec.any ∧ bound ≠ spec then (false, r.2) else (true, r.2)
            else (true, ctxSet r.2 id spec)
        | none => (true, ctxSet r.2 id spec)
      else (false, r.2)
  | .any => (true, ctx)
  | .cls c =>
      if spec = TypeSpec.any then (true, ctx)
      else
        match spec with
        | .cls c' => (!(c' == PyClass.bool && c == PyClass.int) && pySubclass c' c, ctx)
        | _ => (false, ctx)
  | .union args =>
      if spec = TypeSpec.any then (true, ctx) else typeMatchesAny spec args ctx
  | .container o targs =>
      if spec = TypeSpec.any then (true, ctx)
      else if originMatches (getOriginCls spec) o then
        match spec with
        | .container _ sargs => typeMatchesZip sargs targs ctx
        | _ => (true, ctx)
      else (false, ctx)
termination_by sizeOf target

/-- The sequential `any(type_matches(spec, t, ctx) for t in targets)`:
short-circuits on the first success, but context mutations made by failed
attempts persist, exactly as with the shared Python dict. -/
def typeMatchesAny (spec : TypeSpec) (targets : TypeList) (ctx : Ctx) : Bool × Ctx :=
  match targets with
  | .nil => (false, ctx)
  | .cons t ts =>
      let r := typeMatches spec t ctx
      if r.1 then (true, r.2) else typeMatchesAny spec ts r.2
termination_by sizeOf targets

/-- The element-wise `for`-loop over `zip(spec_args, target_spec_args)`
(which, like Python's `zip`, truncates to the shorter list). -/
def typeMatchesZip (sargs targs : TypeList) (ctx : Ctx) : Bool × Ctx :=
  match sargs, targs with
  | .cons s ss, .cons t ts =>
      let r := typeMatches s t ctx
      if r.1 then typeMatchesZip ss ts r.2 else (false, r.2)
  | _, _ => (true, ctx)
termination_by sizeOf targs

end

/-- Matching a plain class against itself as an origin always succeeds. -/
theorem originMatches_self (o : PyClass) : originMatches (some o) o = true := by
  cases o <;> decide

/-- `bool` against `int` fails in every context, leaving the context
untouched. -/
theorem typeMatches_bool_int (ctx : Ctx) :
    typeMatches (.cls .bool) (.cls .int) ctx = (false, ctx) := by
  simp [typeMatches, pySubclass]

/-- The element-wise argument loop fails whenever some position pairs
`bool` with `int`, whatever the context and the other arguments. -/
theorem typeMatchesZip_bool_int (post1 post2 ts ss : TypeList) (ctx : Ctx)
    (hlen : ss.length = ts.length) :
    (typeMatchesZip (ss.append (.cons (.cls .bool) post1))
      (ts.append (.cons (.cls .int) post2)) ctx).1 = false := by
  match ts, ss with
  | .nil, .nil => simp [TypeList.append, typeMatchesZip, typeMatches_bool_int]
  | .nil, .cons s ss' => simp [TypeList.length] at hlen
  | .cons t ts', .nil => simp [TypeList.length] at hlen
  | .cons t ts', .cons s ss' =>
      simp only [TypeList.length, Nat.add_right_cancel_iff] at hlen
      simp only [TypeList.append, typeMatchesZip]
      split
      · exact typeMatchesZip_bool_int post1 post2 ts' ss' _ hlen
      · rfl
termination_by sizeOf ts

/-- C8: in the type matcher, `bool` is not a subtype of `int`: it fails
against `int` in every type-variable context, also when nested inside a
parametric container matched against the corresponding `int`-parameterised
target; any other pair of plain classes matches exactly when the candidate
is a Python subclass of the target. -/
theorem bool_not_subtype_of_int :
    (∀ ctx : Ctx, typeMatches (.cls .bool) (.cls .int) ctx = (false, ctx)) ∧
    (∀ (o : PyClass) (pre1 post1 pre2 post2 : TypeList) (ctx : Ctx),
        pre1.length = pre2.length →
        (typeMatches (.container o (pre1.append (.cons (.cls .bool) post1)))
          (.container o (pre2.append (.cons (.cls .int) post2))) ctx).1 = false) ∧
    (∀ (a b : PyClass) (ctx : Ctx), ¬(a = .bool ∧ b = .int) →
        typeMatches (.cls a) (.cls b) ctx = (pySubclass a b, ctx)) := by
  refine ⟨typeMatches_bool_int, ?_, ?_⟩
  · intro o pre1 post1 pre2 post2 ctx hlen
    have horig := originMatches_self o
    simp only [typeMatches, getOriginCls, horig, reduceCtorEq, false_or,
      if_false, if_true, reduceIte]
    exact typeMatchesZip_bool_int post1 post2 pre2 pre1 ctx hlen
  · intro a b ctx h
    have hba : (a == PyClass.bool && b == PyClass.int) = false := by
      by_cases ha : a = PyClass.bool
      · have hb : b ≠ PyClass.int := fun hb => h ⟨ha, hb⟩
        simp [hb]
      · simp [ha]
    simp [typeMatches, hba]

/-- Witness for C8 at concrete inputs: `bool ≤ int` fails directly and
inside `Set[bool] ≤ Set[int]`, while `float ≤ object` reduces to Python
subclassing. -/
theorem bool_not_subtype_of_int_witness :
    typeMatches (.cls .bool) (.cls .int) [] = (false, []) ∧
    (typeMatches (.container .set (.cons (.cls .bool) .nil))
      (.container .set (.cons (.cls .int) .nil)) []).1 = false ∧
    typeMatches (.cls .float) (.cls .object) [] = (pySubclass .float .object, []) :=
  ⟨bool_not_subtype_of_int.1 [],
   bool_not_subtype_of_int.2.1 .set .nil .nil .nil .nil [] rfl,
   bool_not_subtype_of_int.2.2 .float .object [] (by decide)⟩

end TypeMatch

namespace ExecUtils

/-- The observable effects of one run of the retrying executor: how many
times `connection.execute` ran, how many transactions were rolled back, the
sequence of sleeps performed, and whether the run ended in success (`false`
means the last error propagated to the caller). -/
structure RetryTrace where
  attempts : Nat
  rollbacks : Nat
  sleeps : List ℚ
  success : Bool
deriving DecidableEq, Repr

/-- Modelled from the spec: `execute_with_retry_factory` of
`ehrql/utils/sqlalchemy_exec_utils.py` is not in the source tree; this
models the retry loop it returns — run the query; on failure, while retries
remain, roll back the transaction, sleep `retry_sleep * backoff_factor ^ n`,
and try again; once retries are exhausted the error propagates.  The
attempt-by-attempt outcomes of the fake connection are abstracted as
`ok : Nat → Bool` (`ok n` = the `n`-th execution succeeds), exactly the shape
of the `side_effect` lists in
`tests/unit/utils/test_sqlalchemy_exec_utils.py::test_execute_with_retry`. -/
def retryGo (ok : Nat → Bool) (retrySleep backoff : ℚ) : Nat → Nat → RetryTrace
  | n, left =>
    if ok n then { attempts := 1, rollbacks := 0, sleeps := [], success := true }
    else
      match left with
      | 0 => { attempts := 1, rollbacks := 0, sleeps := [], success := false }
      | left' + 1 =>
          let r := retryGo ok retrySleep backoff (n + 1) left'
          { attempts := r.attempts + 1
            rollbacks := r.rollbacks + 1
            sleeps := retrySleep * backoff ^ n :: r.sleeps
            success := r.success }

/-- The executor produced by
`execute_with_retry_factory(conn, max_retries, retry_sleep, backoff_factor)`:
one initial attempt plus up to `maxRetries` retries. -/
def executeWithRetry (maxRetries : Nat) (retrySleep backoff : ℚ)
    (ok : Nat → Bool) : RetryTrace :=
  retryGo ok retrySleep backoff 0 maxRetries

/-- Trace of the exhausted-retries unit test: `max_retries=3`,
`retry_sleep=10`, `backoff_factor=2`, every attempt raising. -/
def exhaustedTrace : RetryTrace :=
  executeWithRetry 3 10 2 fun _ => false

/-- C3 (refutation): with `max_retries = 3` and every attempt failing, the
executor makes `3 + 1 = 4` attempts — not at most `max_retries` — and rolls
back only 3 times, i.e. not after the final failed attempt (exactly the
counts asserted by
`test_execute_with_retry_exhausted`: `execute.call_count == 4`,
`rollback.call_count == 3`, sleeps `[10, 20, 40]`). -/
theorem retry_attempt_count_exceeds_max_retries :
    exhaustedTrace.attempts = 4 ∧ ¬ exhaustedTrace.attempts ≤ 3 ∧
    exhaustedTrace.rollbacks = 3 ∧ exhaustedTrace.sleeps = [10, 20, 40] ∧
    exhaustedTrace.success = false := by
  have h : exhaustedTrace =
      { attempts := 4, rollbacks := 3, sleeps := [10, 10 * 2, 10 * 2 ^ 2],
        success := false } := by
    simp [exhaustedTrace, executeWithRetry, retryGo]
  rw [h]
  norm_num

/-- A successful attempt stops the loop at once. -/
theorem retryGo_ok (ok : Nat → Bool) (s b : ℚ) (n left : Nat) (h : ok n = true) :
    retryGo ok s b n left =
      { attempts := 1, rollbacks := 0, sleeps := [], success := true } := by
  cases left <;> simp [retryGo, h]

/-- A failed attempt with no retries left propagates the failure. -/
theorem retryGo_zero_fail (ok : Nat → Bool) (s b : ℚ) (n : Nat) (h : ok n = false) :
    retryGo ok s b n 0 =
      { attempts := 1, rollbacks := 0, sleeps := [], success := false } := by
  simp [retryGo, h]

/-- A failed attempt with retries left rolls back, sleeps, and recurses. -/
theorem retryGo_succ_fail (ok : Nat → Bool) (s b : ℚ) (n left' : Nat)
    (h : ok n = false) :
    retryGo ok s b n (left' + 1) =
      { attempts := (retryGo ok s b (n + 1) left').attempts + 1
        rollbacks := (retryGo ok s b (n + 1) left').rollbacks + 1
        sleeps := s * b ^ n :: (retryGo ok s b (n + 1) left').sleeps
        success := (retryGo ok s b (n + 1) left').success } := by
  simp [retryGo, h]

/-- At least one attempt is always made. -/
theorem retryGo_attempts_pos (ok : Nat → Bool) (s b : ℚ) :
    ∀ left n, 1 ≤ (retryGo ok s b n left).attempts := by
  intro left
  induction left with
  | zero =>
      intro n
      cases h : ok n
      · rw [retryGo_zero_fail ok s b n h]
      · rw [retryGo_ok ok s b n 0 h]
  | succ left' ih =>
      intro n
      cases h : ok n
      · rw [retryGo_succ_fail ok s b n left' h]; simp
      · rw [retryGo_ok ok s b n _ h]

/-- At most `left + 1` attempts are made. -/
theorem retryGo_attempts_le (ok : Nat → Bool) (s b : ℚ) :
    ∀ left n, (retryGo ok s b n left).attempts ≤ left + 1 := by
  intro left
  induction left with
  | zero =>
      intro n
      cases h : ok n
      · rw [retryGo_zero_fail ok s b n h]
      · rw [retryGo_ok ok s b n 0 h]
  | succ left' ih =>
      intro n
      cases h : ok n
      · rw [retryGo_succ_fail ok s b n left' h]
        have := ih (n + 1)
        simp only []
        omega
      · rw [retryGo_ok ok s b n _ h]
        simp

/-- A rollback happens before each retry: one per attempt except the
last. -/
theorem retryGo_rollbacks (ok : Nat → Bool) (s b : ℚ) :
    ∀ left n,
      (retryGo ok s b n left).rollbacks = (retryGo ok s b n left).attempts - 1 := by
  intro left
  induction left with
  | zero =>
      intro n
      cases h : ok n
      · rw [retryGo_zero_fail ok s b n h]
        rfl
      · rw [retryGo_ok ok s b n 0 h]
        rfl
  | succ left' ih =>
      intro n
      cases h : ok n
      · rw [retryGo_succ_fail ok s b n left' h]
        have hpos := retryGo_attempts_pos ok s b left' (n + 1)
        have := ih (n + 1)
        simp only []
        omega
      · rw [retryGo_ok ok s b n _ h]
        rfl

/-- The sleeps between consecutive attempts follow the exponential-backoff
schedule, one per retry. -/
theorem retryGo_sleeps (ok : Nat → Bool) (s b : ℚ) :
    ∀ left n, (retryGo ok s b n left).sleeps =
      (List.range ((retryGo ok s b n left).attempts - 1)).map
        (fun k => s * b ^ (n + k)) := by
  intro left
  induction left with
  | zero =>
      intro n
      cases h : ok n
      · rw [retryGo_zero_fail ok s b n h]; simp
      · rw [retryGo_ok ok s b n 0 h]; simp
  | succ left' ih =>
      intro n
      cases h : ok n
      · rw [retryGo_succ_fail ok s b n left' h]
        have hpos := retryGo_attempts_pos ok s b left' (n + 1)
        obtain ⟨m, hm⟩ : ∃ m, (retryGo ok s b (n + 1) left').attempts = m + 1 :=
          ⟨(retryGo ok s b (n + 1) left').attempts - 1, by omega⟩
        simp only [ih (n + 1), hm, Nat.add_sub_cancel, List.range_succ_eq_map,
          List.map_cons, List.map_map]
        refine congrArg₂ List.cons (by ring) ?_
        refine List.map_congr_left fun k _ => ?_
        simp only [Function.comp_apply, Nat.succ_eq_add_one, pow_succ]
        ring
      · rw [retryGo_ok ok s b n _ h]; simp

/-- If the loop reports failure then every allowed attempt was made and each
one failed. -/
theorem retryGo_fail (ok : Nat → Bool) (s b : ℚ) :
    ∀ left n, (retryGo ok s b n left).success = false →
      (retryGo ok s b n left).attempts = left + 1 ∧
      ∀ k ≤ left, ok (n + k) = false := by
  intro left
  induction left with
  | zero =>
      intro n hfail
      cases h : ok n
      · refine ⟨by rw [retryGo_zero_fail ok s b n h], fun k hk => ?_⟩
        interval_cases k
        simpa using h
      · rw [retryGo_ok ok s b n 0 h] at hfail
        simp at hfail
  | succ left' ih =>
      intro n hfail
      cases h : ok n
      · rw [retryGo_succ_fail ok s b n left' h] at hfail ⊢
        obtain ⟨ha, hk⟩ := ih (n + 1) hfail
        refine ⟨by simp only []; omega, fun k hkle => ?_⟩
        cases k with
        | zero => simpa using h
        | succ j =>
            have heq : n + (j + 1) = (n + 1) + j := by omega
            rw [heq]
            exact hk j (by omega)
      · rw [retryGo_ok ok s b n _ h] at hfail
        simp at hfail

/-- Conversely, if every allowed attempt fails then the loop fails. -/
theorem retryGo_all_fail (ok : Nat → Bool) (s b : ℚ) :
    ∀ left n, (∀ k ≤ left, ok (n + k) = false) →
      (retryGo ok s b n left).success = false := by
  intro left
  induction left with
  | zero =>
      intro n hall
      have h : ok n = false := by simpa using hall 0 le_rfl
      rw [retryGo_zero_fail ok s b n h]
  | succ left' ih =>
      intro n hall
      have h : ok n = false := by simpa using hall 0 (Nat.zero_le _)
      rw [retryGo_succ_fail ok s b n left' h]
      exact ih (n + 1) fun k hk => by
        have heq : (n + 1) + k = n + (k + 1) := by omega
        rw [heq]
        exact hall (k + 1) (by omega)

/-- C3 (amended): each query runs at most `max_retries + 1` times (one
initial attempt plus up to `max_retries` retries) with sleeps
`retry_sleep * backoff_factor ^ n` (n = 0, 1, ...) between consecutive
attempts; the transaction is rolled back after every failed attempt that is
followed by a retry (so `attempts - 1` rollbacks, none after the final
failure); and when every attempt fails the original error propagates to the
caller. -/
theorem retry_schedule (maxRetries : Nat) (s b : ℚ) (ok : Nat → Bool) :
    (executeWithRetry maxRetries s b ok).attempts ≤ maxRetries + 1 ∧
    (executeWithRetry maxRetries s b ok).rollbacks =
      (executeWithRetry maxRetries s b ok).attempts - 1 ∧
    (executeWithRetry maxRetries s b ok).sleeps =
      (List.range ((executeWithRetry maxRetries s b ok).attempts - 1)).map
        (fun n => s * b ^ n) ∧
    ((∀ n ≤ maxRetries, ok n = false) →
      (executeWithRetry maxRetries s b ok).success = false ∧
      (executeWithRetry maxRetries s b ok).attempts = maxRetries + 1) := by
  refine ⟨retryGo_attempts_le ok s b maxRetries 0,
    retryGo_rollbacks ok s b maxRetries 0, ?_, fun hall => ?_⟩
  · have h := retryGo_sleeps ok s b maxRetries 0
    simpa using h
  · have hall' : ∀ k ≤ maxRetries, ok (0 + k) = false := by
      intro k hk; simpa using hall k hk
    have hfail := retryGo_all_fail ok s b maxRetries 0 hall'
    exact ⟨hfail, (retryGo_fail ok s b maxRetries 0 hfail).1⟩

/-- Witness for C3 (amended) at `max_retries = 2`, `retry_sleep = 1`,
`backoff_factor = 3`, all attempts failing. -/
theorem retry_schedule_witness :
    (executeWithRetry 2 1 3 (fun _ => false)).attempts ≤ 3 ∧
    (executeWithRetry 2 1 3 (fun _ => false)).rollbacks =
      (executeWithRetry 2 1 3 (fun _ => false)).attempts - 1 ∧
    (executeWithRetry 2 1 3 (fun _ => false)).sleeps =
      (List.range ((executeWithRetry 2 1 3 (fun _ => false)).attempts - 1)).map
        (fun n => (1 : ℚ) * 3 ^ n) ∧
    ((executeWithRetry 2 1 3 (fun _ => false)).success = false ∧
      (executeWithRetry 2 1 3 (fun _ => false)).attempts = 3) := by
  have h := retry_schedule 2 1 3 (fun _ => false)
  exact ⟨h.1, h.2.1, h.2.2.1, h.2.2.2 (fun n _ => rfl)⟩

/- ## The batched reader (`fetch_table_in_batches`) -/

/-- A row of the results table: a key (`patient_id`) and a value. -/
abbrev Row := ℤ × ℤ

/-- Modelled from the spec: the SQL queries issued by
`fetch_table_in_batches` — an initial `SELECT … ORDER BY key LIMIT batch`
(`lastKey = none`) and then `SELECT … WHERE key > :last ORDER BY key LIMIT
batch`.  `table` is the key-ordered contents of the results table, which is
exactly what `ORDER BY key` returns when the keys are distinct. -/
def batchQuery (table : List Row) (lastKey : Option ℤ) (b : Nat) : List Row :=
  match lastKey with
  | none => table.take b
  | some k => (table.filter fun r => decide (k < r.1)).take b

/-- Modelled from the spec: the fetch loop of `fetch_table_in_batches`
(absent from the source tree; pinned by
`tests/unit/utils/test_sqlalchemy_exec_utils.py::test_fetch_table_in_batches`).
Returns the accumulated rows and the log of issued queries, identified by
their `WHERE key > …` bound (`none` for the unrestricted initial query).
Iteration stops after the first batch with fewer than `b` rows; the fuel is
an upper bound on the number of iterations, shown sufficient in
`fetch_table_in_batches_spec`. -/
def fetchLoop (table : List Row) (b : Nat) : Nat → Option ℤ → List Row × List (Option ℤ)
  | 0, _ => ([], [])
  | fuel + 1, lastKey =>
      let batch := batchQuery table lastKey b
      if batch.length < b then (batch, [lastKey])
      else
        match batch.getLast? with
        | none => (batch, [lastKey])
        | some last =>
            let r := fetchLoop table b fuel (some last.1)
            (batch ++ r.1, lastKey :: r.2)

/-- `fetch_table_in_batches(execute, table, key_column, batch_size)`. -/
def fetch_table_in_batches (table : List Row) (b : Nat) :
    List Row × List (Option ℤ) :=
  fetchLoop table b (table.length + 1) none

/-- Loop invariant for the batched reader: if the rows still to be fetched
are exactly the suffix `xs` (everything with key above the last-seen key),
the loop returns them and issues `xs.length / b + 1` further queries. -/
theorem fetchLoop_spec (b : Nat) (hb : 1 ≤ b) :
    ∀ (fuel : Nat) (table ys xs : List Row) (lastKey : Option ℤ),
      table.Pairwise (fun r s => r.1 < s.1) →
      table = ys ++ xs →
      (match lastKey with
       | none => ys = []
       | some k => (∀ y ∈ ys, y.1 ≤ k) ∧ ∀ x ∈ xs, k < x.1) →
      xs.length < fuel →
      (fetchLoop table b fuel lastKey).1 = xs ∧
      (fetchLoop table b fuel lastKey).2.length = xs.length / b + 1 := by
  intro fuel
  induction fuel with
  | zero => intro table ys xs lastKey _ _ _ hlt; omega
  | succ fuel ih =>
      intro table ys xs lastKey hsort htab hbound hlt
      have hbatch : batchQuery table lastKey b = xs.take b := by
        cases lastKey with
        | none =>
            simp only at hbound
            subst hbound
            simp only [List.nil_append] at htab
            subst htab
            rfl
        | some k =>
            obtain ⟨hys, hxs⟩ := hbound
            subst htab
            simp only [batchQuery, List.filter_append]
            have h1 : ys.filter (fun r => decide (k < r.1)) = [] := by
              rw [List.filter_eq_nil_iff]
              intro y hy
              simpa using not_lt.mpr (hys y hy)
            have h2 : xs.filter (fun r => decide (k < r.1)) = xs := by
              rw [List.filter_eq_self]
              intro x hx
              simpa using hxs x hx
            rw [h1, h2, List.nil_append]
      by_cases hshort : xs.length < b
      · have hfull : xs.take b = xs := List.take_of_length_le (le_of_lt hshort)
        have : fetchLoop table b (fuel + 1) lastKey = (xs, [lastKey]) := by
          simp only [fetchLoop, hbatch, hfull, hshort, if_true]
        rw [this]
        exact ⟨rfl, by simp [Nat.div_eq_of_lt hshort]⟩
      · push_neg at hshort
        have hlen : (xs.take b).length = b := by
          rw [List.length_take]; omega
        have hne : xs.take b ≠ [] := by
          intro h
          rw [h] at hlen
          simp at hlen
          omega
        obtain ⟨last, hlast⟩ : ∃ l, (xs.take b).getLast? = some l := by
          cases hcase : (xs.take b).getLast? with
          | none => exact absurd (List.getLast?_eq_none_iff.mp hcase) hne
          | some l => exact ⟨l, rfl⟩
        obtain ⟨ys', hys'⟩ := List.getLast?_eq_some_iff.mp hlast
        have hlast_mem_take : last ∈ xs.take b := by
          rw [hys']
          exact List.mem_append_right _ (List.mem_singleton_self last)
        have hlast_mem : last ∈ xs := List.mem_of_mem_take hlast_mem_take
        have hsx : xs.Pairwise (fun r s => r.1 < s.1) := by
          subst htab
          exact (List.pairwise_append.mp hsort).2.1
        have hsplit : xs = xs.take b ++ xs.drop b := (List.take_append_drop b xs).symm
        have hpair := List.pairwise_append.mp (hsplit ▸ hsx)
        have hcross : ∀ a ∈ xs.take b, ∀ c ∈ xs.drop b, a.1 < c.1 := hpair.2.2
        have htake_sorted : (xs.take b).Pairwise (fun r s => r.1 < s.1) := hpair.1
        have hmaxtb : ∀ x ∈ xs.take b, x.1 ≤ last.1 := by
          intro x hx
          rw [hys'] at hx htake_sorted
          rcases List.mem_append.mp hx with hx' | hx'
          · exact le_of_lt ((List.pairwise_append.mp htake_sorted).2.2 x hx' last
              (List.mem_singleton_self last))
          · rw [List.mem_singleton.mp hx']
        have htab' : table = (ys ++ xs.take b) ++ xs.drop b := by
          rw [List.append_assoc, List.take_append_drop]
          exact htab
        have hbound' : (∀ y ∈ ys ++ xs.take b, y.1 ≤ last.1) ∧
            ∀ x ∈ xs.drop b, last.1 < x.1 := by
          constructor
          · intro y hy
            rcases List.mem_append.mp hy with hy' | hy'
            · cases lastKey with
              | none =>
                  simp only at hbound
                  subst hbound
                  simp at hy'
              | some k =>
                  obtain ⟨hys, hxs⟩ := hbound
                  exact le_of_lt (lt_of_le_of_lt (hys y hy') (hxs last hlast_mem))
            · exact hmaxtb y hy'
          · intro c hc
            exact hcross last hlast_mem_take c hc
        have hltfuel : (xs.drop b).length < fuel := by
          rw [List.length_drop]
          omega
        obtain ⟨ih1, ih2⟩ := ih table (ys ++ xs.take b) (xs.drop b) (some last.1)
          hsort htab' hbound' hltfuel
        have hnotshort : ¬ (xs.take b).length < b := by omega
        have hstep : fetchLoop table b (fuel + 1) lastKey =
            (xs.take b ++ (fetchLoop table b fuel (some last.1)).1,
              lastKey :: (fetchLoop table b fuel (some last.1)).2) := by
          simp only [fetchLoop, hbatch, hnotshort, if_false, hlast]
        rw [hstep]
        constructor
        · simp only [ih1]
          exact (List.take_append_drop b xs)
        · simp only [List.length_cons, ih2, List.length_drop]
          rw [Nat.div_eq_sub_div (by omega : 0 < b) hshort]

/-- C4: for a results table of `n` rows with distinct keys and any batch
size `b ≥ 1`, the batched reader yields exactly the `n` rows in ascending
key order, starts with the unrestricted initial query, and issues exactly
`n / b + 1` queries (each later query being bounded by the last-seen
key). -/
theorem fetch_table_in_batches_spec (table : List Row) (b : Nat) (hb : 1 ≤ b)
    (hsorted : table.Pairwise (fun r s => r.1 < s.1)) :
    (fetch_table_in_batches table b).1 = table ∧
    (fetch_table_in_batches table b).2.length = table.length / b + 1 ∧
    (fetch_table_in_batches table b).2.head? = some none := by
  have h := fetchLoop_spec b hb (table.length + 1) table [] table none hsorted
    (by simp) (by simp) (by omega)
  refine ⟨h.1, h.2, ?_⟩
  unfold fetch_table_in_batches
  cases htl : table.length + 1 with
  | zero => omega
  | succ fuel =>
      simp only [fetchLoop]
      split
      · rfl
      · split
        · rfl
        · rfl

/-- Witness for C4: a three-row table read with batch size 2 — the rows come
back in key order in `3 / 2 + 1 = 2` queries, the first one unrestricted. -/
theorem fetch_table_in_batches_witness :
    (fetch_table_in_batches [(1, 10), (2, 20), (3, 30)] 2).1 =
      [(1, 10), (2, 20), (3, 30)] ∧
    (fetch_table_in_batches [(1, 10), (2, 20), (3, 30)] 2).2.length = 2 ∧
    (fetch_table_in_batches [(1, 10), (2, 20), (3, 30)] 2).2.head? = some none := by
  have h := fetch_table_in_batches_spec [(1, 10), (2, 20), (3, 30)] 2
    (by decide) (by decide)
  exact ⟨h.1, h.2.1, h.2.2⟩

end ExecUtils

namespace QM

/-- A literal wrapped by a `Value` node. -/
inductive Lit
  | nullV
  | boolV (b : Bool)
  | intV (n : Int)
  | ratV (q : ℚ)
  | strV (s : String)
deriving DecidableEq, Repr

/-- Primitive column types of a table schema. -/
inductive ColType
  | bool | int | float | str | date
deriving DecidableEq, Repr

/-- `qm.Position` — first or last row of a sorted frame. -/
inductive Position
  | first | last
deriving DecidableEq, Repr

/-- The query-model node graph (`databuilder.query_model`), embedded as a
tree: structurally equal nodes are the embedding of Python's
value-equal frozen dataclasses.  `pickWC` is
`PickOneRowPerPatientWithColumns`, whose frozenset of selected
`SelectColumn(source, name)` nodes is represented canonically by the
sorted list of the selected names (the columns' shared source being the
pick's own source).  `caseTwo` is a two-branch `Case` — the shape the
transform's `make_sortable` builds. -/
inductive Node
  | selectTable (name : String) (schema : List (String × ColType))
  | selectPatientTable (name : String) (schema : List (String × ColType))
  | selectColumn (source : Node) (name : String)
  | filter (source : Node) (condition : Node)
  | sort (source : Node) (sortBy : Node)
  | pick (source : Node) (position : Position)
  | pickWC (source : Node) (position : Position) (selectedColumns : List String)
  | value (v : Lit)
  | fnNot (source : Node)
  | fnIsNull (source : Node)
  | fnOr (lhs rhs : Node)
  | fnAdd (lhs rhs : Node)
  | fnTrueDivide (lhs rhs : Node)
  | fnFloorDivide (lhs rhs : Node)
  | caseTwo (cond1 val1 cond2 val2 dflt : Node)
deriving DecidableEq, Repr

/- ## Surface language (`databuilder/query_language.py`) -/

/-- `FloatFunctions._cast`: int literals are cast to float for float
series; every other literal is untouched (the default `BaseSeries._cast`
is the identity). -/
def floatCast : Lit → Lit
  | .intV n => .ratV n
  | l => l

/-- `NumericFunctions.__truediv__` on an int series:
`_apply(qm.Function.TrueDivide, self, other)`, `_convert` wrapping the
static operand in `qm.Value`. -/
def truediv (s : Node) (x : Lit) : Node := .fnTrueDivide s (.value x)

/-- `NumericFunctions.__rtruediv__`: `return self / other`. -/
def rtruediv (s : Node) (x : Lit) : Node := truediv s x

/-- `NumericFunctions.__floordiv__`. -/
def floordiv (s : Node) (x : Lit) : Node := .fnFloorDivide s (.value x)

/-- `NumericFunctions.__rfloordiv__`: `return self // other`. -/
def rfloordiv (s : Node) (x : Lit) : Node := floordiv s x

/-- `__truediv__` on a float series (casts int operands to float). -/
def truedivFloat (s : Node) (x : Lit) : Node := .fnTrueDivide s (.value (floatCast x))

/-- `__rtruediv__` on a float series. -/
def rtruedivFloat (s : Node) (x : Lit) : Node := truedivFloat s x

/-- Python's evaluation of `x / s` for a number `x` and a series `s`:
`int.__truediv__`/`float.__truediv__` return `NotImplemented` for a series
operand, so Python dispatches to the series' reflected
`__rtruediv__(s, x)`. -/
def numberDivSeries (x : Lit) (s : Node) : Node := rtruediv s x

/-- Python's evaluation of `x // s`, dispatching to `__rfloordiv__`. -/
def numberFloordivSeries (x : Lit) (s : Node) : Node := rfloordiv s x

/-- C9: the reflected division operators do not swap their operands —
`x / s` builds exactly the node `s / x` builds (`TrueDivide(s, Value x)`),
and likewise for `//`, on int and float series alike. -/
theorem reflected_division_does_not_swap (s : Node) (x : Lit) :
    numberDivSeries x s = truediv s x ∧
    numberFloordivSeries x s = floordiv s x ∧
    numberDivSeries x s = .fnTrueDivide s (.value x) ∧
    rtruedivFloat s x = truedivFloat s x :=
  ⟨rfl, rfl, rfl, rfl⟩

/-- `EventFrame.take(series)`: `Filter(source, condition)`. -/
def EventFrame.take (f c : Node) : Node := .filter f c

/-- `EventFrame.drop(series)`:
`Filter(source, Or(Not(condition), IsNull(condition)))`. -/
def EventFrame.drop (f c : Node) : Node :=
  .filter f (.fnOr (.fnNot c) (.fnIsNull c))

/- ## A three-valued row evaluator for filter conditions.

Modelled from the spec: the engines that evaluate `Filter` conditions are
not in the source tree; SQL `WHERE` keeps exactly the rows whose condition
is TRUE (the in-memory engine in `tests/lib/in_memory/database.py` likewise
keeps rows whose predicate value is truthy, dropping both `False` and
`None`), and `NOT`/`OR`/`IS NULL` follow SQL's three-valued logic. -/

/-- Evaluate a series node on one row, `ρ` giving the row's column values
(`none` = SQL `NULL`). -/
def evalVal (ρ : String → Option Lit) : Node → Option Lit
  | .value .nullV => none
  | .value v => some v
  | .selectColumn _ c => ρ c
  | .fnNot e =>
      match evalVal ρ e with
      | some (.boolV b) => some (.boolV !b)
      | _ => none
  | .fnIsNull e => some (.boolV (evalVal ρ e == none))
  | .fnOr a b =>
      match evalVal ρ a, evalVal ρ b with
      | some (.boolV true), _ => some (.boolV true)
      | _, some (.boolV true) => some (.boolV true)
      | none, _ => none
      | _, none => none
      | some (.boolV false), some (.boolV false) => some (.boolV false)
      | _, _ => none
  | .caseTwo c1 v1 c2 v2 d =>
      if evalVal ρ c1 == some (.boolV true) then evalVal ρ v1
      else if evalVal ρ c2 == some (.boolV true) then evalVal ρ v2
      else evalVal ρ d
  | _ => none

/-- A `Filter` keeps a row exactly when its condition evaluates to TRUE. -/
def filterKeeps (ρ : String → Option Lit) (cond : Node) : Bool :=
  evalVal ρ cond == some (.boolV true)

/-- C10: `drop` builds `Filter(f, Or(Not(c), IsNull(c)))`, so a row is kept
by `drop` exactly when `c` is false or null (null rows are retained), while
`take` filters on `c` directly, keeping a row exactly when `c` is true
(null rows are excluded). -/
theorem drop_retains_null_rows (f c : Node) (ρ : String → Option Lit) :
    EventFrame.drop f c = .filter f (.fnOr (.fnNot c) (.fnIsNull c)) ∧
    EventFrame.take f c = .filter f c ∧
    filterKeeps ρ (.fnOr (.fnNot c) (.fnIsNull c)) =
      (evalVal ρ c == some (.boolV false) || evalVal ρ c == none) ∧
    filterKeeps ρ c = (evalVal ρ c == some (.boolV true)) := by
  refine ⟨rfl, rfl, ?_, rfl⟩
  cases hv : evalVal ρ c with
  | none => simp [filterKeeps, evalVal, hv]
  | some l =>
      cases l with
      | boolV b => cases b <;> simp [filterKeeps, evalVal, hv]
      | nullV => simp [filterKeeps, evalVal, hv]
      | intV n => simp [filterKeeps, evalVal, hv]
      | ratV q => simp [filterKeeps, evalVal, hv]
      | strV s => simp [filterKeeps, evalVal, hv]

/- ## The transforms (`databuilder/query_model_transforms.py`) -/

/-- The column type a `SelectColumn` resolves to, by walking the frame
chain down to the source table's schema (the shape of the query model's
type resolution that `get_series_type` performs for direct column
selections). -/
def columnType : Node → String → Option ColType
  | .selectTable _ schema, c => (schema.find? fun p => p.1 == c).map (·.2)
  | .selectPatientTable _ schema, c => (schema.find? fun p => p.1 == c).map (·.2)
  | .filter s _, c => columnType s c
  | .sort s _, c => columnType s c
  | .pick s _, c => columnType s c
  | .pickWC s _ _, c => columnType s c
  | _, _ => none

/-- `get_series_type`, restricted to what `make_sortable` inspects: the
transform only ever applies it to a `SelectColumn` (the other cases are an
approximation of the query model's result types and are never reached by
the transform). -/
def getSeriesType : Node → Option ColType
  | .selectColumn s c => columnType s c
  | .value (.boolV _) => some .bool
  | .value (.intV _) => some .int
  | .value (.ratV _) => some .float
  | .value (.strV _) => some .str
  | .fnNot _ => some .bool
  | .fnIsNull _ => some .bool
  | .fnOr _ _ => some .bool
  | .fnTrueDivide _ _ => some .float
  | .fnFloorDivide _ _ => some .int
  | _ => none

/-- `make_sortable(col)`: boolean sort columns are wrapped in
`Case(cases={col: Value(2), Function.Not(col): Value(1)}, default=Value(0))`
because some databases cannot sort booleans; anything else is returned
unchanged. -/
def make_sortable (col : Node) : Node :=
  if getSeriesType col == some ColType.bool then
    .caseTwo col (.value (.intV 2)) (.fnNot col) (.value (.intV 1)) (.value (.intV 0))
  else col

/-- `force_setattr(node, "source", newSrc)`: replace the node's `source`
field when its dataclass declares one.  On a node without a `source` field
(a `Case`, a `Value`, a binary function, a table) the Python call merely
attaches a stray attribute that takes no part in dataclass equality, so
structurally it is the identity. -/
def setSource (n newSrc : Node) : Node :=
  match n with
  | .selectColumn _ c => .selectColumn newSrc c
  | .fnNot _ => .fnNot newSrc
  | .fnIsNull _ => .fnIsNull newSrc
  | .filter _ c => .filter newSrc c
  | .sort _ b => .sort newSrc b
  | .pick _ p => .pick newSrc p
  | .pickWC _ p cols => .pickWC newSrc p cols
  | other => other

/-- `get_immediate_sorts`, projected to the sort keys: the `sort_by` series
of the maximal `Sort` chain under a pick, topmost first. -/
def chainSorts : Node → List Node
  | .sort s b => b :: chainSorts s
  | _ => []

/-- The frame below a pick's `Sort` chain (the first non-`Sort` source). -/
def chainBase : Node → Node
  | .sort s _ => chainBase s
  | n => n

/-- Rebuild a `Sort` chain from its sort keys (topmost first) over a
base. -/
def buildChain (bys : List Node) (base : Node) : Node :=
  match bys with
  | [] => base
  | b :: rest => .sort (buildChain rest base) b

/-- The stack of new tie-break `Sort`s the transform's loop builds for the
given column names (in loop order): every new sort selects its column from
the chain's base (`lowest_sort.source` at the time it is created), and
each new sort except the deepest has its sort key's `source` field
repointed at the sort below it by the loop's second `force_setattr`. -/
def buildNewSorts (base : Node) : List String → Node
  | [] => base
  | [n] => .sort base (make_sortable (.selectColumn base n))
  | n :: rest =>
      let below := buildNewSorts base rest
      .sort below (setSource (make_sortable (.selectColumn base n)) below)

/-- Reattach the existing sort keys (topmost first) above the new chain;
the loop's first iteration also repoints the `source` field of the
*bottom* existing sort's key at the first new sort. -/
def attachBelow (bys : List Node) (nc : Node) : Node :=
  match bys with
  | [] => nc
  | [b] => .sort nc (setSource b nc)
  | b :: rest => .sort (attachBelow rest nc) b

/-- The name of a direct column sort key
(`sort.sort_by.name if isinstance(sort.sort_by, SelectColumn)`). -/
def directSortName : Node → Option String
  | .selectColumn _ n => some n
  | _ => none

/-- Insert a name into a strictly sorted name list, keeping it sorted and
duplicate-free — the canonical representation of a Python set of strings
ordered by `sorted(...)`. -/
def insertName (x : String) : List String → List String
  | [] => [x]
  | y :: ys =>
      if x < y then x :: y :: ys
      else if x = y then y :: ys
      else y :: insertName x ys

/-- Canonical sorted, duplicate-free view of a list of names. -/
def sortedNames (l : List String) : List String := l.foldr insertName []

/-- The selected-column names recorded for a pick node:
`{c.name for c in dependers if isinstance(c, SelectColumn)}` over the whole
node set, membership being the query model's structural equality. -/
def namesFor (ns : List Node) (p : Node) : List String :=
  sortedNames (ns.filterMap fun m =>
    match m with
    | .selectColumn src c => if src = p then some c else none
    | _ => none)

/-- `all_nodes`: every node reachable from a query, the root included. -/
def allNodes : Node → List Node
  | .selectTable nm sch => [.selectTable nm sch]
  | .selectPatientTable nm sch => [.selectPatientTable nm sch]
  | .selectColumn s c => .selectColumn s c :: allNodes s
  | .filter s c => .filter s c :: (allNodes s ++ allNodes c)
  | .sort s b => .sort s b :: (allNodes s ++ allNodes b)
  | .pick s p => .pick s p :: allNodes s
  | .pickWC s p cols => .pickWC s p cols :: allNodes s
  | .value v => [.value v]
  | .fnNot s => .fnNot s :: allNodes s
  | .fnIsNull s => .fnIsNull s :: allNodes s
  | .fnOr l r => .fnOr l r :: (allNodes l ++ allNodes r)
  | .fnAdd l r => .fnAdd l r :: (allNodes l ++ allNodes r)
  | .fnTrueDivide l r => .fnTrueDivide l r :: (allNodes l ++ allNodes r)
  | .fnFloorDivide l r => .fnFloorDivide l r :: (allNodes l ++ allNodes r)
  | .caseTwo c1 v1 c2 v2 d =>
      .caseTwo c1 v1 c2 v2 d ::
        (allNodes c1 ++ allNodes v1 ++ allNodes c2 ++ allNodes v2 ++ allNodes d)

/-- `all_nodes_from_variables`. -/
def allNodesVars (vars : List (String × Node)) : List Node :=
  vars.flatMap fun kv => allNodes kv.2

/-- `add_selected_columns_to_pick_row`: every `PickOneRowPerPatient` (the
`WithColumns` subclass included, since `isinstance` accepts it) becomes a
`PickOneRowPerPatientWithColumns` recording the names of the columns
selected from it anywhere in the graph. -/
def rewriteA (ns : List Node) : Node → Node
  | .pick s pos => .pickWC (rewriteA ns s) pos (namesFor ns (.pick s pos))
  | .pickWC s pos cols => .pickWC (rewriteA ns s) pos (namesFor ns (.pickWC s pos cols))
  | .selectTable nm sch => .selectTable nm sch
  | .selectPatientTable nm sch => .selectPatientTable nm sch
  | .selectColumn s c => .selectColumn (rewriteA ns s) c
  | .filter s c => .filter (rewriteA ns s) (rewriteA ns c)
  | .sort s b => .sort (rewriteA ns s) (rewriteA ns b)
  | .value v => .value v
  | .fnNot s => .fnNot (rewriteA ns s)
  | .fnIsNull s => .fnIsNull (rewriteA ns s)
  | .fnOr l r => .fnOr (rewriteA ns l) (rewriteA ns r)
  | .fnAdd l r => .fnAdd (rewriteA ns l) (rewriteA ns r)
  | .fnTrueDivide l r => .fnTrueDivide (rewriteA ns l) (rewriteA ns r)
  | .fnFloorDivide l r => .fnFloorDivide (rewriteA ns l) (rewriteA ns r)
  | .caseTwo c1 v1 c2 v2 d =>
      .caseTwo (rewriteA ns c1) (rewriteA ns v1) (rewriteA ns c2)
        (rewriteA ns v2) (rewriteA ns d)

/-- `include_all_selected_columns_in_sorts`: under every
`PickOneRowPerPatientWithColumns`, append one tie-break `Sort` per selected
column name that is not already a direct column sort, in lexicographic
order, below the existing chain. -/
def rewriteB : Node → Node
  | .pickWC s pos cols =>
      let s' := rewriteB s
      let bys := chainSorts s'
      let existing := bys.filterMap directSortName
      let toAdd := cols.filter fun c => !existing.contains c
      let src' :=
        if bys.isEmpty || toAdd.isEmpty then s'
        else attachBelow bys (buildNewSorts (chainBase s') toAdd)
      .pickWC src' pos cols
  | .pick s pos => .pick (rewriteB s) pos
  | .selectTable nm sch => .selectTable nm sch
  | .selectPatientTable nm sch => .selectPatientTable nm sch
  | .selectColumn s c => .selectColumn (rewriteB s) c
  | .filter s c => .filter (rewriteB s) (rewriteB c)
  | .sort s b => .sort (rewriteB s) (rewriteB b)
  | .value v => .value v
  | .fnNot s => .fnNot (rewriteB s)
  | .fnIsNull s => .fnIsNull (rewriteB s)
  | .fnOr l r => .fnOr (rewriteB l) (rewriteB r)
  | .fnAdd l r => .fnAdd (rewriteB l) (rewriteB r)
  | .fnTrueDivide l r => .fnTrueDivide (rewriteB l) (rewriteB r)
  | .fnFloorDivide l r => .fnFloorDivide (rewriteB l) (rewriteB r)
  | .caseTwo c1 v1 c2 v2 d =>
      .caseTwo (rewriteB c1) (rewriteB v1) (rewriteB c2) (rewriteB v2) (rewriteB d)

/-- `apply_transforms(variables)`: collect the node set, convert the picks
(recording selected columns), then stabilise the sorts; the surrounding
deep copies only restore hash consistency and are the identity under
structural equality. -/
def apply_transforms (vars : List (String × Node)) : List (String × Node) :=
  let ns := allNodesVars vars
  vars.map fun kv => (kv.1, rewriteB (rewriteA ns kv.2))

/- ## Facts about the canonical sorted name lists -/

theorem mem_insertName {x y : String} {l : List String} :
    y ∈ insertName x l ↔ y = x ∨ y ∈ l := by
  induction l with
  | nil => simp [insertName]
  | cons z zs ih =>
      simp only [insertName]
      split
      · simp [List.mem_cons]
      · split
        · rename_i hlt heq
          subst heq
          simp [List.mem_cons]
        · simp only [List.mem_cons, ih]
          tauto

theorem mem_sortedNames {y : String} {l : List String} :
    y ∈ sortedNames l ↔ y ∈ l := by
  induction l with
  | nil => simp [sortedNames]
  | cons z zs ih =>
      simp only [sortedNames, List.foldr_cons] at ih ⊢
      rw [mem_insertName, ih, List.mem_cons]

theorem sorted_insertName {x : String} {l : List String}
    (h : l.Pairwise (· < ·)) : (insertName x l).Pairwise (· < ·) := by
  induction l with
  | nil => simp [insertName]
  | cons z zs ih =>
      simp only [insertName]
      rcases List.pairwise_cons.mp h with ⟨hz, hzs⟩
      split
      · rename_i hlt
        refine List.pairwise_cons.mpr ⟨?_, h⟩
        intro a ha
        rcases List.mem_cons.mp ha with rfl | ha'
        · exact hlt
        · exact lt_trans hlt (hz a ha')
      · split
        · exact h
        · rename_i hnlt hne
          refine List.pairwise_cons.mpr ⟨?_, ih hzs⟩
          intro a ha
          rcases mem_insertName.mp ha with rfl | ha'
          · rcases lt_trichotomy z a with hc | hc | hc
            · exact hc
            · exact absurd hc.symm hne
            · exact absurd hc hnlt
          · exact hz a ha'

theorem sorted_sortedNames (l : List String) :
    (sortedNames l).Pairwise (· < ·) := by
  induction l with
  | nil => simp [sortedNames]
  | cons z zs ih => exact sorted_insertName ih

/- ## Chain decomposition and preservation lemmas -/

/-- The existing sort keys with the bottom one's `source` field repointed
at the new chain — the top-to-bottom keys of `attachBelow bys nc`. -/
def updLast (bys : List Node) (nc : Node) : List Node :=
  match bys with
  | [] => []
  | [b] => [setSource b nc]
  | b :: rest => b :: updLast rest nc

theorem length_updLast (bys : List Node) (nc : Node) :
    (updLast bys nc).length = bys.length := by
  induction bys with
  | nil => rfl
  | cons b rest ih =>
      cases rest with
      | nil => rfl
      | cons b' rest' => simpa [updLast] using ih

theorem directSortName_setSource (b nc : Node) :
    directSortName (setSource b nc) = directSortName b := by
  cases b <;> rfl

theorem chainSorts_attachBelow (bys : List Node) (nc : Node) (h : bys ≠ []) :
    chainSorts (attachBelow bys nc) = updLast bys nc ++ chainSorts nc := by
  induction bys with
  | nil => exact absurd rfl h
  | cons b rest ih =>
      cases rest with
      | nil => simp [attachBelow, updLast, chainSorts]
      | cons b' rest' =>
          simp only [attachBelow, updLast, chainSorts, List.cons_append]
          rw [ih (by simp)]

theorem chainBase_attachBelow (bys : List Node) (nc : Node) :
    chainBase (attachBelow bys nc) = chainBase nc := by
  induction bys with
  | nil => rfl
  | cons b rest ih =>
      cases rest with
      | nil => simp [attachBelow, chainBase]
      | cons b' rest' => simpa [attachBelow, chainBase] using ih

/-- The top-to-bottom keys of the stack of newly built tie-break sorts. -/
def newKeys (base : Node) : List String → List Node
  | [] => []
  | [n] => [make_sortable (.selectColumn base n)]
  | n :: rest =>
      setSource (make_sortable (.selectColumn base n)) (buildNewSorts base rest) ::
        newKeys base rest

theorem chainSorts_buildNewSorts (base : Node) (l : List String)
    (hbase : chainSorts base = []) :
    chainSorts (buildNewSorts base l) = newKeys base l := by
  induction l with
  | nil => simpa [buildNewSorts, newKeys]
  | cons n rest ih =>
      cases rest with
      | nil => simp [buildNewSorts, newKeys, chainSorts, hbase]
      | cons n' rest' =>
          simp only [buildNewSorts, newKeys, chainSorts]
          rw [ih]

theorem chainBase_buildNewSorts (base : Node) (l : List String)
    (hbase : chainBase base = base) :
    chainBase (buildNewSorts base l) = base := by
  induction l with
  | nil => simpa [buildNewSorts]
  | cons n rest ih =>
      cases rest with
      | nil => simpa [buildNewSorts, chainBase]
      | cons n' rest' => simpa [buildNewSorts, chainBase] using ih

theorem length_newKeys (base : Node) (l : List String) :
    (newKeys base l).length = l.length := by
  induction l with
  | nil => rfl
  | cons n rest ih =>
      cases rest with
      | nil => rfl
      | cons n' rest' => simpa [newKeys] using ih

/-- The frame below a chain never starts with another `Sort`. -/
theorem chainSorts_chainBase (x : Node) : chainSorts (chainBase x) = [] := by
  induction x <;> simp_all [chainBase, chainSorts]

/-- `chainBase` is idempotent. -/
theorem chainBase_chainBase (x : Node) : chainBase (chainBase x) = chainBase x := by
  induction x <;> simp_all [chainBase]

/-- Resolving a column through a frame is resolving it through the frame
below its sort chain. -/
theorem columnType_chainBase (x : Node) (c : String) :
    columnType x c = columnType (chainBase x) c := by
  induction x <;> simp_all [chainBase, columnType]

/-- The names of direct column sorts are untouched by the bottom-sort
repointing. -/
theorem filterMap_directSortName_updLast (bys : List Node) (nc : Node) :
    (updLast bys nc).filterMap directSortName = bys.filterMap directSortName := by
  induction bys with
  | nil => rfl
  | cons b rest ih =>
      cases rest with
      | nil => simp [updLast, List.filterMap, directSortName_setSource]
      | cons b' rest' =>
          simp only [updLast, List.filterMap_cons, ih]

/-- The column name a sort key is on, also through the boolean `Case`
wrapping. -/
def sortKeyName : Node → Option String
  | .selectColumn _ n => some n
  | .caseTwo (.selectColumn _ n) _ _ _ _ => some n
  | _ => none

/-- The `Case` node `make_sortable` builds for a boolean column. -/
def boolSortKey (base : Node) (n : String) : Node :=
  .caseTwo (.selectColumn base n) (.value (.intV 2)) (.fnNot (.selectColumn base n))
    (.value (.intV 1)) (.value (.intV 0))

theorem make_sortable_eq (base : Node) (n : String) :
    make_sortable (.selectColumn base n) =
      if columnType base n == some ColType.bool then boolSortKey base n
      else .selectColumn base n := by
  simp only [make_sortable, getSeriesType, boolSortKey]

theorem sortKeyName_newKey (base x : Node) (n : String) :
    sortKeyName (setSource (make_sortable (.selectColumn base n)) x) = some n := by
  rw [make_sortable_eq]
  split <;> rfl

theorem sortKeyName_make_sortable (base : Node) (n : String) :
    sortKeyName (make_sortable (.selectColumn base n)) = some n := by
  rw [make_sortable_eq]
  split <;> rfl

theorem map_sortKeyName_newKeys (base : Node) (l : List String) :
    (newKeys base l).map sortKeyName = l.map some := by
  induction l with
  | nil => rfl
  | cons n rest ih =>
      cases rest with
      | nil => simp [newKeys, sortKeyName_make_sortable]
      | cons n' rest' =>
          simp only [newKeys, List.map_cons, sortKeyName_newKey]
          rw [ih]
          simp

/-- Shape of each newly added sort key: a boolean column is wrapped in the
{true → 2, false → 1, null → 0} `Case`; any other column is sorted on
directly. -/
theorem mem_newKeys_shape (base : Node) (l : List String) :
    ∀ b ∈ newKeys base l, ∃ n ∈ l, sortKeyName b = some n ∧
      (columnType base n = some ColType.bool → b = boolSortKey base n) ∧
      (columnType base n ≠ some ColType.bool → ∃ src, b = .selectColumn src n) := by
  induction l with
  | nil => intro b hb; simp [newKeys] at hb
  | cons n rest ih =>
      intro b hb
      cases rest with
      | nil =>
          simp only [newKeys, List.mem_singleton] at hb
          subst hb
          refine ⟨n, by simp, sortKeyName_make_sortable base n, ?_, ?_⟩
          · intro hbool
            rw [make_sortable_eq]
            simp [hbool]
          · intro hnot
            rw [make_sortable_eq]
            refine ⟨base, ?_⟩
            have : (columnType base n == some ColType.bool) = false := by
              simpa using hnot
            simp [this]
      | cons n' rest' =>
          rcases List.mem_cons.mp hb with rfl | hb'
          · refine ⟨n, by simp, sortKeyName_newKey base _ n, ?_, ?_⟩
            · intro hbool
              rw [make_sortable_eq]
              simp [hbool, boolSortKey, setSource]
            · intro hnot
              rw [make_sortable_eq]
              have : (columnType base n == some ColType.bool) = false := by
                simpa using hnot
              simp only [this]
              exact ⟨buildNewSorts base (n' :: rest'), by simp [setSource]⟩
          · obtain ⟨m, hm, h1, h2, h3⟩ := ih b hb'
            exact ⟨m, List.mem_cons_of_mem _ hm, h1, h2, h3⟩

/-- Evaluation of the boolean tie-break `Case`: true → 2, false → 1,
null → 0. -/
theorem boolSortKey_eval (base : Node) (n : String) (ρ : String → Option Lit) :
    (ρ n = some (.boolV true) → evalVal ρ (boolSortKey base n) = some (.intV 2)) ∧
    (ρ n = some (.boolV false) → evalVal ρ (boolSortKey base n) = some (.intV 1)) ∧
    (ρ n = none → evalVal ρ (boolSortKey base n) = some (.intV 0)) := by
  refine ⟨fun h => ?_, fun h => ?_, fun h => ?_⟩ <;>
    simp [boolSortKey, evalVal, h]

/-- The tie-break column names for a pick over `s` selecting `cols`: the
selected names that are not already the name of a direct column sort of the
chain. -/
def tieBreaks (s : Node) (cols : List String) : List String :=
  cols.filter fun c => !((chainSorts (rewriteB s)).filterMap directSortName).contains c

/-- C5: after the stabilisation pass, a pick's chain consists of the
existing sorts (their direct-column sort names unchanged) followed below by
exactly one new `Sort` per selected column name not already directly
sorted, in lexicographic name order; a new sort on a boolean column uses
the `Case` mapping true → 2, false → 1, null → 0 instead of the raw
column. -/
theorem stabilization_appends_sorted_tiebreaks
    (s : Node) (pos : Position) (cols : List String)
    (hchain : chainSorts (rewriteB s) ≠ [])
    (hsorted : cols.Pairwise (· < ·)) :
    ∃ src',
      rewriteB (.pickWC s pos cols) = .pickWC src' pos cols ∧
      (chainSorts src').length =
        (chainSorts (rewriteB s)).length + (tieBreaks s cols).length ∧
      ((chainSorts src').take (chainSorts (rewriteB s)).length).filterMap
          directSortName =
        (chainSorts (rewriteB s)).filterMap directSortName ∧
      ((chainSorts src').drop (chainSorts (rewriteB s)).length).map sortKeyName =
        (tieBreaks s cols).map some ∧
      (tieBreaks s cols).Pairwise (· < ·) ∧
      (∀ b ∈ (chainSorts src').drop (chainSorts (rewriteB s)).length,
        ∃ n ∈ tieBreaks s cols, sortKeyName b = some n ∧
          (columnType (chainBase (rewriteB s)) n = some ColType.bool →
            b = boolSortKey (chainBase (rewriteB s)) n) ∧
          (columnType (chainBase (rewriteB s)) n ≠ some ColType.bool →
            ∃ src, b = .selectColumn src n)) ∧
      chainBase src' = chainBase (rewriteB s) ∧
      (∀ (base : Node) (n : String) (ρ : String → Option Lit),
        (ρ n = some (.boolV true) → evalVal ρ (boolSortKey base n) = some (.intV 2)) ∧
        (ρ n = some (.boolV false) → evalVal ρ (boolSortKey base n) = some (.intV 1)) ∧
        (ρ n = none → evalVal ρ (boolSortKey base n) = some (.intV 0))) := by
  have hpairs : (tieBreaks s cols).Pairwise (· < ·) := hsorted.filter _
  have hne : (chainSorts (rewriteB s)).isEmpty = false := by
    cases hcs : chainSorts (rewriteB s) with
    | nil => exact absurd hcs hchain
    | cons a as => rfl
  by_cases hta : tieBreaks s cols = []
  · refine ⟨rewriteB s, ?_, ?_, ?_, ?_, hpairs, ?_, rfl, fun b n ρ => boolSortKey_eval b n ρ⟩
    · simp only [rewriteB]
      rw [show (cols.filter fun c =>
          !((chainSorts (rewriteB s)).filterMap directSortName).contains c) =
          tieBreaks s cols from rfl, hta]
      simp [hne]
    · simp [hta]
    · simp [hta]
    · simp [hta]
    · intro b hb
      rw [List.drop_length] at hb
      simp at hb
  · have htaE : (tieBreaks s cols).isEmpty = false := by
      cases hcs : tieBreaks s cols with
      | nil => exact absurd hcs hta
      | cons a as => rfl
    set bys := chainSorts (rewriteB s) with hbys
    set base := chainBase (rewriteB s) with hbase
    set nc := buildNewSorts base (tieBreaks s cols) with hnc
    have hstep : rewriteB (.pickWC s pos cols) =
        .pickWC (attachBelow bys nc) pos cols := by
      simp only [rewriteB]
      rw [show (cols.filter fun c =>
          !((chainSorts (rewriteB s)).filterMap directSortName).contains c) =
          tieBreaks s cols from rfl]
      simp [hne, htaE, hbys, hnc, hbase]
    have hcs : chainSorts (attachBelow bys nc) =
        updLast bys nc ++ newKeys base (tieBreaks s cols) := by
      rw [chainSorts_attachBelow bys nc hchain, hnc,
        chainSorts_buildNewSorts base _ (by rw [hbase]; exact chainSorts_chainBase _)]
    have hcb : chainBase (attachBelow bys nc) = base := by
      rw [chainBase_attachBelow, hnc,
        chainBase_buildNewSorts base _ (by rw [hbase]; exact chainBase_chainBase _)]
    refine ⟨attachBelow bys nc, hstep, ?_, ?_, ?_, hpairs, ?_, hcb,
      fun b n ρ => boolSortKey_eval b n ρ⟩
    · rw [hcs]
      simp [length_updLast, length_newKeys]
    · rw [hcs, List.take_left' (length_updLast bys nc),
        filterMap_directSortName_updLast]
    · rw [hcs, List.drop_left' (length_updLast bys nc),
        map_sortKeyName_newKeys]
    · intro b hb
      rw [hcs, List.drop_left' (length_updLast bys nc)] at hb
      exact mem_newKeys_shape base _ b hb

/-- An events table with a boolean column `b` and integer columns `i`,
`x`. -/
def exTable : Node :=
  .selectTable "events" [("b", ColType.bool), ("i", ColType.int), ("x", ColType.int)]

/-- The table sorted by its `i` column. -/
def exSort : Node := .sort exTable (.selectColumn exTable "i")

/-- Witness for C5: a pick over `sort_by(i)` selecting `b` (boolean) and
`x` (integer) gains two tie-break sorts, on `b` and `x` in that order, the
boolean one `Case`-wrapped. -/
theorem stabilization_appends_sorted_tiebreaks_witness :
    ∃ src',
      rewriteB (.pickWC exSort .last ["b", "x"]) = .pickWC src' .last ["b", "x"] ∧
      (chainSorts src').length =
        (chainSorts (rewriteB exSort)).length + (tieBreaks exSort ["b", "x"]).length ∧
      ((chainSorts src').take (chainSorts (rewriteB exSort)).length).filterMap
          directSortName =
        (chainSorts (rewriteB exSort)).filterMap directSortName ∧
      ((chainSorts src').drop (chainSorts (rewriteB exSort)).length).map sortKeyName =
        (tieBreaks exSort ["b", "x"]).map some ∧
      (tieBreaks exSort ["b", "x"]).Pairwise (· < ·) ∧
      (∀ b ∈ (chainSorts src').drop (chainSorts (rewriteB exSort)).length,
        ∃ n ∈ tieBreaks exSort ["b", "x"], sortKeyName b = some n ∧
          (columnType (chainBase (rewriteB exSort)) n = some ColType.bool →
            b = boolSortKey (chainBase (rewriteB exSort)) n) ∧
          (columnType (chainBase (rewriteB exSort)) n ≠ some ColType.bool →
            ∃ src, b = .selectColumn src n)) ∧
      chainBase src' = chainBase (rewriteB exSort) ∧
      (∀ (base : Node) (n : String) (ρ : String → Option Lit),
        (ρ n = some (.boolV true) → evalVal ρ (boolSortKey base n) = some (.intV 2)) ∧
        (ρ n = some (.boolV false) → evalVal ρ (boolSortKey base n) = some (.intV 1)) ∧
        (ρ n = none → evalVal ρ (boolSortKey base n) = some (.intV 0))) :=
  stabilization_appends_sorted_tiebreaks exSort .last ["b", "x"] (by decide)
    (by
      refine List.pairwise_cons.mpr ⟨?_, by simp⟩
      intro a ha
      rw [List.mem_singleton] at ha
      subst ha
      rw [String.lt_iff_toList_lt]
      decide)

/-- The variable map of the C2 counterexample: one variable selecting the
boolean column `b` of the last row of the events table sorted by `i`. -/
def cexVars : List (String × Node) :=
  [("v", .selectColumn (.pick (.sort exTable (.selectColumn exTable "i")) .last) "b")]

/-- C2 (refutation): the transformer is not idempotent.  On a variable that
selects a *boolean* column from a pick, the first application adds a
tie-break `Sort` whose key is the boolean `Case` wrapper — which the second
application does not recognise as an existing sort on that column (it only
counts direct `SelectColumn` sort keys), so it appends the same boolean
tie-break sort a second time. -/
theorem apply_transforms_not_idempotent :
    apply_transforms (apply_transforms cexVars) ≠ apply_transforms cexVars := by
  decide

/- ## Well-formedness, for the amended idempotence theorem -/

/-- Whether a node is a `PickOneRowPerPatient`. -/
def isPick : Node → Bool
  | .pick _ _ => true
  | _ => false

/-- Whether a node is a `PickOneRowPerPatientWithColumns`. -/
def isPickWC : Node → Bool
  | .pickWC _ _ _ => true
  | _ => false

/-- Whether a node is a `Sort`. -/
def isSort : Node → Bool
  | .sort _ _ => true
  | _ => false

/-- A well-behaved sort key over a chain with base `base`: either a direct
column selection *of the base* (the shape `sort_by` has when sorting a frame
by one of its columns, and the shape the transform's `force_setattr`
repointing assumes), or a node without a `source` field (which the
repointing leaves structurally unchanged). -/
def sortByOkAt (base : Node) : Node → Bool
  | .selectColumn src _ => src == base
  | .fnNot _ => false
  | .fnIsNull _ => false
  | .filter _ _ => false
  | .sort _ _ => false
  | .pick _ _ => false
  | .pickWC _ _ _ => false
  | _ => true

/-- A chain base must be an event-frame source: a table selection or a
filtered frame (in particular, never a pick). -/
def baseOk : Node → Bool
  | .selectTable _ _ => true
  | .filter _ _ => true
  | _ => false

/-- Query-model well-formedness of a user-built graph: every pick sits
directly on a `Sort` (invariant 4 of the query model), every sort's key is
well-behaved over its chain's base, chain bases are event-frame sources,
and no `PickOneRowPerPatientWithColumns` occurs (those exist only inside
the transformer). -/
def nodeOk : Node → Bool
  | .selectTable _ _ => true
  | .selectPatientTable _ _ => true
  | .selectColumn s _ => nodeOk s
  | .filter s c => nodeOk s && nodeOk c
  | .sort s b => nodeOk s && nodeOk b && sortByOkAt (chainBase s) b && baseOk (chainBase s)
  | .pick s _ => isSort s && nodeOk s
  | .pickWC _ _ _ => false
  | .value _ => true
  | .fnNot s => nodeOk s
  | .fnIsNull s => nodeOk s
  | .fnOr l r => nodeOk l && nodeOk r
  | .fnAdd l r => nodeOk l && nodeOk r
  | .fnTrueDivide l r => nodeOk l && nodeOk r
  | .fnFloorDivide l r => nodeOk l && nodeOk r
  | .caseTwo c1 v1 c2 v2 d =>
      nodeOk c1 && nodeOk v1 && nodeOk c2 && nodeOk v2 && nodeOk d

/-- The no-boolean-tie-break condition at a pick: every selected column
name that is not already a direct column sort of the chain has a
non-boolean type. -/
def tieBreakTypesOk (ns : List Node) : Node → Bool := fun p =>
  match p with
  | .pick s _ =>
      (namesFor ns p).all fun c =>
        ((chainSorts s).filterMap directSortName).contains c ||
        !(columnType (chainBase s) c == some ColType.bool)
  | _ => true

/- ## Preservation of chains, names and column types by the passes -/

theorem chainSorts_rewriteA (ns : List Node) (x : Node) :
    chainSorts (rewriteA ns x) = (chainSorts x).map (rewriteA ns) := by
  induction x <;> simp_all [rewriteA, chainSorts]

theorem chainBase_rewriteA (ns : List Node) (x : Node) :
    chainBase (rewriteA ns x) = rewriteA ns (chainBase x) := by
  induction x <;> simp_all [rewriteA, chainBase]

theorem chainSorts_rewriteB (x : Node) :
    chainSorts (rewriteB x) = (chainSorts x).map rewriteB := by
  induction x <;> simp_all [rewriteB, chainSorts]

theorem chainBase_rewriteB (x : Node) :
    chainBase (rewriteB x) = rewriteB (chainBase x) := by
  induction x <;> simp_all [rewriteB, chainBase]

theorem directSortName_rewriteA (ns : List Node) (b : Node) :
    directSortName (rewriteA ns b) = directSortName b := by
  cases b <;> rfl

theorem directSortName_rewriteB (b : Node) :
    directSortName (rewriteB b) = directSortName b := by
  cases b <;> rfl

theorem columnType_rewriteA (ns : List Node) (x : Node) (c : String) :
    columnType (rewriteA ns x) c = columnType x c := by
  induction x <;> simp_all [rewriteA, columnType]

theorem columnType_attachBelow (bys : List Node) (nc : Node) (c : String) :
    columnType (attachBelow bys nc) c = columnType nc c := by
  induction bys with
  | nil => rfl
  | cons b rest ih =>
      cases rest with
      | nil => simp [attachBelow, columnType]
      | cons b' rest' => simpa [attachBelow, columnType] using ih

theorem columnType_buildNewSorts (base : Node) (l : List String) (c : String) :
    columnType (buildNewSorts base l) c = columnType base c := by
  induction l with
  | nil => rfl
  | cons n rest ih =>
      cases rest with
      | nil => simp [buildNewSorts, columnType]
      | cons n' rest' => simpa [buildNewSorts, columnType] using ih

theorem columnType_rewriteB (x : Node) (c : String) :
    columnType (rewriteB x) c = columnType x c := by
  cases x with
  | pickWC s pos cols =>
      simp only [rewriteB, columnType]
      split
      · exact columnType_rewriteB s c
      · rw [columnType_attachBelow, columnType_buildNewSorts,
          ← columnType_chainBase]
        exact columnType_rewriteB s c
  | selectTable nm sch => rfl
  | selectPatientTable nm sch => rfl
  | selectColumn s c0 => simp [rewriteB, columnType]
  | filter s c0 => simpa [rewriteB, columnType] using columnType_rewriteB s c
  | sort s b => simpa [rewriteB, columnType] using columnType_rewriteB s c
  | pick s p => simpa [rewriteB, columnType] using columnType_rewriteB s c
  | value v => rfl
  | fnNot s => rfl
  | fnIsNull s => rfl
  | fnOr l r => rfl
  | fnAdd l r => rfl
  | fnTrueDivide l r => rfl
  | fnFloorDivide l r => rfl
  | caseTwo c1 v1 c2 v2 d => rfl
termination_by sizeOf x

/- ## Reachability (`all_nodes`) facts -/

/-- `get_input_nodes`: the direct child nodes of a node. -/
def children : Node → List Node
  | .selectTable _ _ => []
  | .selectPatientTable _ _ => []
  | .selectColumn s _ => [s]
  | .filter s c => [s, c]
  | .sort s b => [s, b]
  | .pick s _ => [s]
  | .pickWC s _ _ => [s]
  | .value _ => []
  | .fnNot s => [s]
  | .fnIsNull s => [s]
  | .fnOr l r => [l, r]
  | .fnAdd l r => [l, r]
  | .fnTrueDivide l r => [l, r]
  | .fnFloorDivide l r => [l, r]
  | .caseTwo c1 v1 c2 v2 d => [c1, v1, c2, v2, d]

theorem allNodes_eq (x : Node) :
    allNodes x = x :: (children x).flatMap allNodes := by
  cases x <;> simp [allNodes, children]

theorem sizeOf_children {x : Node} : ∀ ch ∈ children x, sizeOf ch < sizeOf x := by
  cases x <;> simp_all [children] <;> omega

theorem mem_allNodes {m x : Node} :
    m ∈ allNodes x ↔ m = x ∨ ∃ ch ∈ children x, m ∈ allNodes ch := by
  rw [allNodes_eq]
  simp

theorem mem_allNodes_self (x : Node) : x ∈ allNodes x :=
  mem_allNodes.mpr (Or.inl rfl)

theorem mem_allNodes_of_child {x ch : Node} (hch : ch ∈ children x) :
    ch ∈ allNodes x :=
  mem_allNodes.mpr (Or.inr ⟨ch, hch, mem_allNodes_self ch⟩)

theorem mem_allNodes_trans (x y m : Node) (hm : m ∈ allNodes y)
    (hy : y ∈ allNodes x) : m ∈ allNodes x := by
  rcases mem_allNodes.mp hy with rfl | ⟨ch, hch, hy'⟩
  · exact hm
  · have hlt := sizeOf_children ch hch
    exact mem_allNodes.mpr (Or.inr ⟨ch, hch, mem_allNodes_trans ch y m hm hy'⟩)
termination_by sizeOf x

theorem mem_chainSorts_allNodes {s b : Node} (hb : b ∈ chainSorts s) :
    b ∈ allNodes s := by
  induction s with
  | sort a b0 iha ihb =>
      rcases List.mem_cons.mp hb with rfl | hb'
      · simp only [allNodes, List.mem_cons, List.mem_append]
        exact Or.inr (Or.inr (mem_allNodes_self _))
      · have := iha hb'
        simp only [allNodes, List.mem_cons, List.mem_append]
        tauto
  | _ => simp [chainSorts] at hb

theorem chainBase_mem_allNodes (s : Node) : chainBase s ∈ allNodes s := by
  induction s with
  | sort a b0 iha ihb =>
      simp only [chainBase]
      simp only [allNodes, List.mem_cons, List.mem_append]
      tauto
  | _ => exact mem_allNodes_self _

theorem mem_allNodes_chain {s m : Node} (hm : m ∈ allNodes s) :
    isSort m = true ∨ (∃ b ∈ chainSorts s, m ∈ allNodes b) ∨
      m ∈ allNodes (chainBase s) := by
  induction s with
  | sort a b0 iha ihb =>
      simp only [allNodes, List.mem_cons, List.mem_append] at hm
      rcases hm with rfl | hm | hm
      · exact Or.inl rfl
      · rcases iha hm with h | ⟨b, hb, h⟩ | h
        · exact Or.inl h
        · exact Or.inr (Or.inl ⟨b, List.mem_cons_of_mem _ hb, h⟩)
        · exact Or.inr (Or.inr h)
      · exact Or.inr (Or.inl ⟨b0, List.mem_cons_self _ _, hm⟩)
  | _ => exact Or.inr (Or.inr (by simpa [chainBase]))

theorem sizeOf_mem_chainSorts {s b : Node} (hb : b ∈ chainSorts s) :
    sizeOf b < sizeOf s := by
  induction s with
  | sort a b0 iha ihb =>
      rcases List.mem_cons.mp hb with rfl | hb'
      · simp
      · have := iha hb'
        simp
        omega
  | _ => simp [chainSorts] at hb

theorem sizeOf_chainBase_le (s : Node) : sizeOf (chainBase s) ≤ sizeOf s := by
  induction s with
  | sort a b0 iha ihb =>
      simp only [chainBase]
      simp
      omega
  | _ => exact le_rfl

/- ## The composite transform and its constructor equations -/

/-- Both passes of `apply_transforms` on one node. -/
def tfm (ns : List Node) (x : Node) : Node := rewriteB (rewriteA ns x)

/-- The rebuilt source of a `PickOneRowPerPatientWithColumns` after the
stabilisation pass. -/
def pickNewSource (x : Node) (cols : List String) : Node :=
  let s' := rewriteB x
  let bys := chainSorts s'
  let existing := bys.filterMap directSortName
  let toAdd := cols.filter fun c => !existing.contains c
  if bys.isEmpty || toAdd.isEmpty then s'
  else attachBelow bys (buildNewSorts (chainBase s') toAdd)

theorem rewriteB_pickWC (x : Node) (pos : Position) (cols : List String) :
    rewriteB (.pickWC x pos cols) = .pickWC (pickNewSource x cols) pos cols := by
  simp [rewriteB, pickNewSource]

theorem tfm_pick (ns : List Node) (s : Node) (pos : Position) :
    tfm ns (.pick s pos) =
      .pickWC (pickNewSource (rewriteA ns s) (namesFor ns (.pick s pos))) pos
        (namesFor ns (.pick s pos)) := by
  simp [tfm, rewriteA, rewriteB_pickWC]

theorem chainSorts_tfm (ns : List Node) (s : Node) :
    chainSorts (tfm ns s) = (chainSorts s).map (tfm ns) := by
  simp [tfm, chainSorts_rewriteB, chainSorts_rewriteA, List.map_map]

theorem chainBase_tfm (ns : List Node) (s : Node) :
    chainBase (tfm ns s) = tfm ns (chainBase s) := by
  simp [tfm, chainBase_rewriteB, chainBase_rewriteA]

theorem columnType_tfm (ns : List Node) (x : Node) (c : String) :
    columnType (tfm ns x) c = columnType x c := by
  rw [tfm, columnType_rewriteB, columnType_rewriteA]

theorem directSortName_tfm (ns : List Node) (b : Node) :
    directSortName (tfm ns b) = directSortName b := by
  rw [tfm, directSortName_rewriteB, directSortName_rewriteA]

/-- Whether a node's dataclass declares a `source` field (the ones
`force_setattr(node, "source", …)` changes structurally). -/
def hasSourceField : Node → Bool
  | .selectColumn _ _ => true
  | .fnNot _ => true
  | .fnIsNull _ => true
  | .filter _ _ => true
  | .sort _ _ => true
  | .pick _ _ => true
  | .pickWC _ _ _ => true
  | _ => false

theorem setSource_of_no_source {x : Node} (h : hasSourceField x = false)
    (y : Node) : setSource x y = x := by
  cases x <;> simp_all [hasSourceField, setSource]

theorem setSource_caseTwo (c1 v1 c2 v2 d y : Node) :
    setSource (.caseTwo c1 v1 c2 v2 d) y = .caseTwo c1 v1 c2 v2 d := rfl

theorem setSource_selectColumn (src : Node) (n : String) (y : Node) :
    setSource (.selectColumn src n) y = .selectColumn y n := rfl

theorem hasSourceField_tfm (ns : List Node) (x : Node) :
    hasSourceField (tfm ns x) = hasSourceField x := by
  cases x <;> rfl

theorem isPickWC_tfm (ns : List Node) {x : Node} (h : nodeOk x = true) :
    isPickWC (tfm ns x) = isPick x := by
  cases x <;> first
    | rfl
    | simp [nodeOk] at h

/- ## Admissibility: selected columns are recorded on every pick -/

/-- Whether a column selection from a pick-with-columns is recorded in the
pick's selected columns. -/
def colsOk : Node → Bool
  | .selectColumn (.pickWC _ _ scs) c => scs.contains c
  | _ => true

/-- Every node reachable from `x` is `colsOk`. -/
def adm (x : Node) : Prop := ∀ m ∈ allNodes x, colsOk m = true

theorem adm_iff {x : Node} :
    adm x ↔ colsOk x = true ∧ ∀ ch ∈ children x, adm ch := by
  constructor
  · intro h
    refine ⟨h x (mem_allNodes_self x), fun ch hch m hm => ?_⟩
    exact h m (mem_allNodes_trans x ch m hm (mem_allNodes_of_child hch))
  · rintro ⟨h1, h2⟩ m hm
    rcases mem_allNodes.mp hm with rfl | ⟨ch, hch, hm'⟩
    · exact h1
    · exact h2 ch hch m hm'

theorem mem_namesFor {ns : List Node} {p : Node} {c : String}
    (h : (.selectColumn p c) ∈ ns) : c ∈ namesFor ns p := by
  rw [namesFor, mem_sortedNames, List.mem_filterMap]
  exact ⟨.selectColumn p c, h, by simp⟩

theorem tfm_selectColumn (ns : List Node) (src : Node) (c : String) :
    tfm ns (.selectColumn src c) = .selectColumn (tfm ns src) c := rfl

theorem nodeOk_sort {s b : Node} (h : nodeOk (.sort s b) = true) :
    nodeOk s = true ∧ nodeOk b = true ∧ sortByOkAt (chainBase s) b = true ∧
      baseOk (chainBase s) = true := by
  simpa [nodeOk, Bool.and_eq_true, and_assoc] using h

theorem nodeOk_pick {s : Node} {pos : Position}
    (h : nodeOk (.pick s pos) = true) : isSort s = true ∧ nodeOk s = true := by
  simpa [nodeOk, Bool.and_eq_true] using h

theorem nodeOk_children {x : Node} (h : nodeOk x = true) :
    ∀ ch ∈ children x, nodeOk ch = true := by
  cases x <;> simp_all [nodeOk, children, Bool.and_eq_true]

/-- The well-formedness facts along a pick's sort chain: every sort key is
well-formed and well-behaved over the chain's base, and the base is
well-formed. -/
theorem nodeOk_chain : ∀ s : Node, nodeOk s = true →
    (∀ b ∈ chainSorts s, nodeOk b = true ∧ sortByOkAt (chainBase s) b = true) ∧
    nodeOk (chainBase s) = true := by
  intro s
  induction s <;> intro h
  case sort a b0 iha ihb =>
    obtain ⟨ha, hb0, hsba, hba⟩ := nodeOk_sort h
    obtain ⟨hchain_a, hbase_a⟩ := iha ha
    refine ⟨?_, by simpa [chainBase] using hbase_a⟩
    intro b hb
    rcases List.mem_cons.mp hb with rfl | hb'
    · exact ⟨hb0, by simpa [chainBase] using hsba⟩
    · simpa [chainBase] using hchain_a b hb'
  all_goals exact ⟨fun b hb => by simp [chainSorts] at hb, by simpa [chainBase] using h⟩

/-- The base of a well-formed chain keeps its (non-pick) constructor under
the transform. -/
theorem isPickWC_tfm_of_baseOk (ns : List Node) {x : Node}
    (h : baseOk x = true) : isPickWC (tfm ns x) = false := by
  cases x <;> simp_all [baseOk] <;> rfl

theorem isPickWC_buildNewSorts_cons (base : Node) (n : String) (l : List String) :
    isPickWC (buildNewSorts base (n :: l)) = false := by
  cases l <;> rfl

theorem adm_selectColumn {base : Node} {n : String} (hb : isPickWC base = false)
    (ha : adm base) : adm (.selectColumn base n) := by
  rw [adm_iff]
  refine ⟨?_, by simpa [children]⟩
  cases base <;> simp_all [isPickWC, colsOk]

theorem adm_value (v : Lit) : adm (.value v) := by
  rw [adm_iff]
  exact ⟨rfl, by simp [children]⟩

theorem adm_fnNot {x : Node} (h : adm x) : adm (.fnNot x) := by
  rw [adm_iff]
  exact ⟨rfl, by simpa [children]⟩

theorem adm_make_sortable_col {base : Node} {n : String}
    (hb : isPickWC base = false) (ha : adm base) :
    adm (make_sortable (.selectColumn base n)) := by
  rw [make_sortable_eq]
  split
  · rw [boolSortKey, adm_iff]
    refine ⟨rfl, ?_⟩
    intro ch hch
    simp only [children, List.mem_cons, List.mem_singleton, List.mem_nil_iff, or_false] at hch
    rcases hch with rfl | rfl | rfl | rfl | rfl
    · exact adm_selectColumn hb ha
    · exact adm_value _
    · exact adm_fnNot (adm_selectColumn hb ha)
    · exact adm_value _
    · exact adm_value _
  · exact adm_selectColumn hb ha

theorem buildNewSorts_two (base : Node) (n n' : String) (rest' : List String) :
    buildNewSorts base (n :: n' :: rest') =
      .sort (buildNewSorts base (n' :: rest'))
        (setSource (make_sortable (.selectColumn base n))
          (buildNewSorts base (n' :: rest'))) := rfl

theorem attachBelow_two (b b' : Node) (rest' : List Node) (nc : Node) :
    attachBelow (b :: b' :: rest') nc = .sort (attachBelow (b' :: rest') nc) b := rfl

theorem updLast_two (b b' : Node) (rest' : List Node) (nc : Node) :
    updLast (b :: b' :: rest') nc = b :: updLast (b' :: rest') nc := rfl

theorem adm_buildNewSorts {base : Node} (hb : isPickWC base = false)
    (ha : adm base) : ∀ l : List String, adm (buildNewSorts base l) := by
  intro l
  induction l with
  | nil => exact ha
  | cons n rest ih =>
      cases rest with
      | nil =>
          rw [buildNewSorts, adm_iff]
          refine ⟨rfl, ?_⟩
          intro ch hch
          simp only [children, List.mem_cons, List.mem_singleton, List.mem_nil_iff, or_false] at hch
          rcases hch with rfl | rfl
          · exact ha
          · exact adm_make_sortable_col hb ha
      | cons n' rest' =>
          rw [buildNewSorts_two, adm_iff]
          refine ⟨rfl, ?_⟩
          intro ch hch
          simp only [children, List.mem_cons, List.mem_singleton, List.mem_nil_iff, or_false] at hch
          rcases hch with rfl | rfl
          · exact ih
          · rw [make_sortable_eq]
            split
            · rw [boolSortKey, setSource_caseTwo, adm_iff]
              refine ⟨rfl, ?_⟩
              intro ch hch
              simp only [children, List.mem_cons, List.mem_singleton, List.mem_nil_iff, or_false] at hch
              rcases hch with rfl | rfl | rfl | rfl | rfl
              · exact adm_selectColumn hb ha
              · exact adm_value _
              · exact adm_fnNot (adm_selectColumn hb ha)
              · exact adm_value _
              · exact adm_value _
            · rw [setSource_selectColumn]
              exact adm_selectColumn (isPickWC_buildNewSorts_cons base n' rest') ih

theorem mem_updLast {bys : List Node} {nc b : Node} (hb : b ∈ updLast bys nc) :
    b ∈ bys ∨ ∃ b0 ∈ bys, b = setSource b0 nc := by
  induction bys with
  | nil => simp [updLast] at hb
  | cons x rest ih =>
      cases rest with
      | nil =>
          simp only [updLast, List.mem_singleton] at hb
          exact Or.inr ⟨x, by simp, hb⟩
      | cons x' rest' =>
          rw [updLast_two] at hb
          rcases List.mem_cons.mp hb with rfl | hb'
          · exact Or.inl (by simp)
          · rcases ih hb' with h | ⟨b0, hb0, rfl⟩
            · exact Or.inl (List.mem_cons_of_mem _ h)
            · exact Or.inr ⟨b0, List.mem_cons_of_mem _ hb0, rfl⟩

/-- A well-behaved sort key is a direct column of the base or has no
`source` field. -/
theorem sortByOkAt_cases {base b : Node} (h : sortByOkAt base b = true) :
    (∃ c0, b = .selectColumn base c0) ∨ hasSourceField b = false := by
  cases b <;> simp_all [sortByOkAt, hasSourceField]

theorem colsOk_selectColumn_of_not_pickWC {x : Node} (h : isPickWC x = false)
    (c : String) : colsOk (.selectColumn x c) = true := by
  cases x <;> simp_all [isPickWC, colsOk]

theorem adm_attachBelow {bys : List Node} {nc : Node}
    (hb : ∀ b ∈ updLast bys nc, adm b) (hnc : adm nc) :
    adm (attachBelow bys nc) := by
  induction bys with
  | nil => exact hnc
  | cons b rest ih =>
      cases rest with
      | nil =>
          rw [attachBelow, adm_iff]
          refine ⟨rfl, ?_⟩
          intro ch hch
          simp only [children, List.mem_cons, List.mem_singleton, List.mem_nil_iff, or_false] at hch
          rcases hch with rfl | rfl
          · exact hnc
          · exact hb _ (by simp [updLast])
      | cons b' rest' =>
          rw [attachBelow_two, adm_iff]
          refine ⟨rfl, ?_⟩
          intro ch hch
          simp only [children, List.mem_cons, List.mem_singleton, List.mem_nil_iff, or_false] at hch
          rcases hch with rfl | rfl
          · exact ih fun x hx => hb x (by simp [updLast, hx])
          · exact hb _ (by simp [updLast])

theorem sizeOf_chain_lt_pick {s b : Node} (hb : b ∈ chainSorts s)
    (pos : Position) : sizeOf b < sizeOf (Node.pick s pos) := by
  have := sizeOf_mem_chainSorts hb
  simp
  omega

theorem sizeOf_chainBase_lt_pick (s : Node) (pos : Position) :
    sizeOf (chainBase s) < sizeOf (Node.pick s pos) := by
  have := sizeOf_chainBase_le s
  simp
  omega

/-- The stabilised source of a pick keeps every selected column recorded,
given the admissibility and shape facts of its chain. -/
theorem adm_pickNewSource (ns : List Node) (s : Node) (cols : List String)
    (hstfm : adm (tfm ns s))
    (hbysAdm : ∀ b ∈ chainSorts s, adm (tfm ns b))
    (hbysShape : ∀ b ∈ chainSorts s, sortByOkAt (chainBase s) b = true)
    (hbaseAdm : adm (tfm ns (chainBase s)))
    (hbaseWC : isPickWC (tfm ns (chainBase s)) = false) :
    adm (pickNewSource (rewriteA ns s) cols) := by
  rw [pickNewSource]
  split
  · exact hstfm
  · rename_i hcond
    have hbys_eq : chainSorts (rewriteB (rewriteA ns s)) =
        (chainSorts s).map (tfm ns) := chainSorts_tfm ns s
    have hbase_eq : chainBase (rewriteB (rewriteA ns s)) =
        tfm ns (chainBase s) := chainBase_tfm ns s
    have htadd : (cols.filter fun c =>
        !((chainSorts (rewriteB (rewriteA ns s))).filterMap
            directSortName).contains c) ≠ [] := by
      intro hnil
      apply hcond
      rw [hnil]
      simp
    have hncAdm : adm (buildNewSorts (chainBase (rewriteB (rewriteA ns s)))
        (cols.filter fun c =>
          !((chainSorts (rewriteB (rewriteA ns s))).filterMap
              directSortName).contains c)) := by
      rw [hbase_eq]
      exact adm_buildNewSorts hbaseWC hbaseAdm _
    have hncWC : isPickWC (buildNewSorts (chainBase (rewriteB (rewriteA ns s)))
        (cols.filter fun c =>
          !((chainSorts (rewriteB (rewriteA ns s))).filterMap
              directSortName).contains c)) = false := by
      cases hta : (cols.filter fun c =>
          !((chainSorts (rewriteB (rewriteA ns s))).filterMap
              directSortName).contains c) with
      | nil => exact absurd hta htadd
      | cons t ts => exact isPickWC_buildNewSorts_cons _ t ts
    apply adm_attachBelow
    · intro b hb
      rcases mem_updLast hb with hmem | ⟨b0, hb0, rfl⟩
      · rw [hbys_eq] at hmem
        obtain ⟨orig, horig, rfl⟩ := List.mem_map.mp hmem
        exact hbysAdm orig horig
      · rw [hbys_eq] at hb0
        obtain ⟨orig, horig, rfl⟩ := List.mem_map.mp hb0
        rcases sortByOkAt_cases (hbysShape orig horig) with ⟨c0, rfl⟩ | hnos
        · rw [tfm_selectColumn, setSource_selectColumn]
          exact adm_selectColumn hncWC hncAdm
        · rw [setSource_of_no_source (by rw [hasSourceField_tfm]; exact hnos)]
          exact hbysAdm orig horig
    · exact hncAdm

/-- S1: the transform of a well-formed node whose reachable set is inside
the collected node set yields an admissible graph: every column selection
from a (transformed) pick has its name recorded in the pick's selected
columns. -/
theorem adm_tfm (ns : List Node) :
    ∀ n : Node, nodeOk n = true → (∀ m ∈ allNodes n, m ∈ ns) → adm (tfm ns n) := by
  intro n h hsub
  have hSubCh : ∀ ch ∈ children n, ∀ m ∈ allNodes ch, m ∈ ns := fun ch hch m hm =>
    hsub m (mem_allNodes_trans n ch m hm (mem_allNodes_of_child hch))
  cases n with
  | selectTable nm sch =>
      rw [show tfm ns (.selectTable nm sch) = .selectTable nm sch from rfl]
      exact adm_iff.mpr ⟨rfl, by simp [children]⟩
  | selectPatientTable nm sch =>
      rw [show tfm ns (.selectPatientTable nm sch) =
        .selectPatientTable nm sch from rfl]
      exact adm_iff.mpr ⟨rfl, by simp [children]⟩
  | value v =>
      rw [show tfm ns (.value v) = .value v from rfl]
      exact adm_iff.mpr ⟨rfl, by simp [children]⟩
  | pickWC s pos cols => simp [nodeOk] at h
  | selectColumn src c =>
      have hsrcOk : nodeOk src = true := nodeOk_children h src (by simp [children])
      rw [tfm_selectColumn, adm_iff]
      constructor
      · cases hp : isPick src
        · exact colsOk_selectColumn_of_not_pickWC
            (by rw [isPickWC_tfm ns hsrcOk, hp]) c
        · cases src with
          | pick s2 pos2 =>
              rw [tfm_pick]
              show (namesFor ns (.pick s2 pos2)).contains c = true
              exact List.elem_eq_true_of_mem
                (mem_namesFor (hsub _ (mem_allNodes_self _)))
          | _ => simp [isPick] at hp
      · intro ch hch
        simp only [children, List.mem_cons, List.mem_nil_iff, or_false,
          List.mem_singleton] at hch
        subst hch
        exact adm_tfm ns src hsrcOk (hSubCh src (by simp [children]))
  | filter s c =>
      rw [show tfm ns (.filter s c) = .filter (tfm ns s) (tfm ns c) from rfl, adm_iff]
      refine ⟨rfl, ?_⟩
      intro ch hch
      simp only [children, List.mem_cons, List.mem_nil_iff, or_false,
        List.mem_singleton] at hch
      rcases hch with rfl | rfl
      · exact adm_tfm ns s (nodeOk_children h s (by simp [children]))
          (hSubCh s (by simp [children]))
      · exact adm_tfm ns c (nodeOk_children h c (by simp [children]))
          (hSubCh c (by simp [children]))
  | sort s b =>
      rw [show tfm ns (.sort s b) = .sort (tfm ns s) (tfm ns b) from rfl, adm_iff]
      refine ⟨rfl, ?_⟩
      intro ch hch
      simp only [children, List.mem_cons, List.mem_nil_iff, or_false,
        List.mem_singleton] at hch
      rcases hch with rfl | rfl
      · exact adm_tfm ns s (nodeOk_children h s (by simp [children]))
          (hSubCh s (by simp [children]))
      · exact adm_tfm ns b (nodeOk_children h b (by simp [children]))
          (hSubCh b (by simp [children]))
  | fnNot s =>
      rw [show tfm ns (.fnNot s) = .fnNot (tfm ns s) from rfl, adm_iff]
      refine ⟨rfl, ?_⟩
      intro ch hch
      simp only [children, List.mem_cons, List.mem_nil_iff, or_false,
        List.mem_singleton] at hch
      subst hch
      exact adm_tfm ns s (nodeOk_children h s (by simp [children]))
        (hSubCh s (by simp [children]))
  | fnIsNull s =>
      rw [show tfm ns (.fnIsNull s) = .fnIsNull (tfm ns s) from rfl, adm_iff]
      refine ⟨rfl, ?_⟩
      intro ch hch
      simp only [children, List.mem_cons, List.mem_nil_iff, or_false,
        List.mem_singleton] at hch
      subst hch
      exact adm_tfm ns s (nodeOk_children h s (by simp [children]))
        (hSubCh s (by simp [children]))
  | fnOr l r =>
      rw [show tfm ns (.fnOr l r) = .fnOr (tfm ns l) (tfm ns r) from rfl, adm_iff]
      refine ⟨rfl, ?_⟩
      intro ch hch
      simp only [children, List.mem_cons, List.mem_nil_iff, or_false,
        List.mem_singleton] at hch
      rcases hch with rfl | rfl
      · exact adm_tfm ns l (nodeOk_children h l (by simp [children]))
          (hSubCh l (by simp [children]))
      · exact adm_tfm ns r (nodeOk_children h r (by simp [children]))
          (hSubCh r (by simp [children]))
  | fnAdd l r =>
      rw [show tfm ns (.fnAdd l r) = .fnAdd (tfm ns l) (tfm ns r) from rfl, adm_iff]
      refine ⟨rfl, ?_⟩
      intro ch hch
      simp only [children, List.mem_cons, List.mem_nil_iff, or_false,
        List.mem_singleton] at hch
      rcases hch with rfl | rfl
      · exact adm_tfm ns l (nodeOk_children h l (by simp [children]))
          (hSubCh l (by simp [children]))
      · exact adm_tfm ns r (nodeOk_children h r (by simp [children]))
          (hSubCh r (by simp [children]))
  | fnTrueDivide l r =>
      rw [show tfm ns (.fnTrueDivide l r) =
        .fnTrueDivide (tfm ns l) (tfm ns r) from rfl, adm_iff]
      refine ⟨rfl, ?_⟩
      intro ch hch
      simp only [children, List.mem_cons, List.mem_nil_iff, or_false,
        List.mem_singleton] at hch
      rcases hch with rfl | rfl
      · exact adm_tfm ns l (nodeOk_children h l (by simp [children]))
          (hSubCh l (by simp [children]))
      · exact adm_tfm ns r (nodeOk_children h r (by simp [children]))
          (hSubCh r (by simp [children]))
  | fnFloorDivide l r =>
      rw [show tfm ns (.fnFloorDivide l r) =
        .fnFloorDivide (tfm ns l) (tfm ns r) from rfl, adm_iff]
      refine ⟨rfl, ?_⟩
      intro ch hch
      simp only [children, List.mem_cons, List.mem_nil_iff, or_false,
        List.mem_singleton] at hch
      rcases hch with rfl | rfl
      · exact adm_tfm ns l (nodeOk_children h l (by simp [children]))
          (hSubCh l (by simp [children]))
      · exact adm_tfm ns r (nodeOk_children h r (by simp [children]))
          (hSubCh r (by simp [children]))
  | caseTwo c1 v1 c2 v2 d =>
      rw [show tfm ns (.caseTwo c1 v1 c2 v2 d) = .caseTwo (tfm ns c1) (tfm ns v1)
        (tfm ns c2) (tfm ns v2) (tfm ns d) from rfl, adm_iff]
      refine ⟨rfl, ?_⟩
      intro ch hch
      simp only [children, List.mem_cons, List.mem_nil_iff, or_false,
        List.mem_singleton] at hch
      rcases hch with rfl | rfl | rfl | rfl | rfl
      · exact adm_tfm ns c1 (nodeOk_children h c1 (by simp [children]))
          (hSubCh c1 (by simp [children]))
      · exact adm_tfm ns v1 (nodeOk_children h v1 (by simp [children]))
          (hSubCh v1 (by simp [children]))
      · exact adm_tfm ns c2 (nodeOk_children h c2 (by simp [children]))
          (hSubCh c2 (by simp [children]))
      · exact adm_tfm ns v2 (nodeOk_children h v2 (by simp [children]))
          (hSubCh v2 (by simp [children]))
      · exact adm_tfm ns d (nodeOk_children h d (by simp [children]))
          (hSubCh d (by simp [children]))
  | pick s pos =>
      obtain ⟨hsort, hs⟩ := nodeOk_pick h
      rw [tfm_pick, adm_iff]
      refine ⟨rfl, ?_⟩
      intro ch hch
      simp only [children, List.mem_cons, List.mem_nil_iff, or_false,
        List.mem_singleton] at hch
      subst hch
      have hsSub : ∀ m ∈ allNodes s, m ∈ ns := hSubCh s (by simp [children])
      have hchainfacts := nodeOk_chain s hs
      have hbaseOk : baseOk (chainBase s) = true := by
        cases s with
        | sort a b0 => exact (nodeOk_sort hs).2.2.2
        | _ => simp [isSort] at hsort
      refine adm_pickNewSource ns s _ (adm_tfm ns s hs hsSub) ?_ ?_ ?_ ?_
      · intro b hb
        exact adm_tfm ns b (hchainfacts.1 b hb).1
          (fun m hm => hsSub m
            (mem_allNodes_trans s b m hm (mem_chainSorts_allNodes hb)))
      · exact fun b hb => (hchainfacts.1 b hb).2
      · exact adm_tfm ns (chainBase s) hchainfacts.2
          (fun m hm => hsSub m
            (mem_allNodes_trans s (chainBase s) m hm (chainBase_mem_allNodes s)))
      · exact isPickWC_tfm_of_baseOk ns hbaseOk
termination_by n => sizeOf n
decreasing_by
  all_goals subst_vars
  all_goals first
    | (simp_arith
       done)
    | exact sizeOf_chain_lt_pick hb _
    | exact sizeOf_chainBase_lt_pick _ _

/-- Well-formedness is hereditary along reachability. -/
theorem nodeOk_reachable : ∀ n : Node, nodeOk n = true →
    ∀ m ∈ allNodes n, nodeOk m = true := by
  intro n h m hm
  rcases mem_allNodes.mp hm with rfl | ⟨ch, hch, hm'⟩
  · exact h
  · exact nodeOk_reachable ch (nodeOk_children h ch hch) m hm'
termination_by n => sizeOf n
decreasing_by exact sizeOf_children ch hch

theorem mem_allNodes_buildNewSorts {base m : Node} (hm : m ∈ allNodes base) :
    ∀ l : List String, m ∈ allNodes (buildNewSorts base l) := by
  intro l
  induction l with
  | nil => exact hm
  | cons n rest ih =>
      cases rest with
      | nil =>
          simp only [buildNewSorts, allNodes, List.mem_cons, List.mem_append]
          tauto
      | cons n' rest' =>
          rw [buildNewSorts_two]
          simp only [allNodes, List.mem_cons, List.mem_append]
          tauto

theorem mem_allNodes_attachBelow_of_nc {nc m : Node} (hm : m ∈ allNodes nc) :
    ∀ bys : List Node, m ∈ allNodes (attachBelow bys nc) := by
  intro bys
  induction bys with
  | nil => exact hm
  | cons b rest ih =>
      cases rest with
      | nil =>
          simp only [attachBelow, allNodes, List.mem_cons, List.mem_append]
          tauto
      | cons b' rest' =>
          rw [attachBelow_two]
          simp only [allNodes, List.mem_cons, List.mem_append]
          tauto

theorem mem_allNodes_attachBelow_of_updLast {nc m b : Node} :
    ∀ bys : List Node, b ∈ updLast bys nc → m ∈ allNodes b →
      m ∈ allNodes (attachBelow bys nc) := by
  intro bys
  induction bys with
  | nil => intro hb; simp [updLast] at hb
  | cons x rest ih =>
      cases rest with
      | nil =>
          intro hb hm
          simp only [updLast, List.mem_singleton] at hb
          subst hb
          simp only [attachBelow, allNodes, List.mem_cons, List.mem_append]
          tauto
      | cons x' rest' =>
          intro hb hm
          rw [updLast_two] at hb
          rw [attachBelow_two]
          simp only [allNodes, List.mem_cons, List.mem_append]
          rcases List.mem_cons.mp hb with rfl | hb'
          · tauto
          · have := ih hb' hm
            tauto

/-- Every chain key lands in the rebuilt chain, either unchanged or with
its `source` field repointed. -/
theorem mem_updLast_of_mem {nc : Node} :
    ∀ (bys : List Node) (b : Node), b ∈ bys →
      b ∈ updLast bys nc ∨ setSource b nc ∈ updLast bys nc := by
  intro bys
  induction bys with
  | nil => intro b hb; simp at hb
  | cons x rest ih =>
      intro b hb
      cases rest with
      | nil =>
          rcases List.mem_cons.mp hb with rfl | hb'
          · right
            simp [updLast]
          · simp at hb'
      | cons x' rest' =>
          rw [updLast_two]
          rcases List.mem_cons.mp hb with rfl | hb'
          · left
            simp
          · rcases ih b hb' with h | h
            · exact Or.inl (List.mem_cons_of_mem _ h)
            · exact Or.inr (List.mem_cons_of_mem _ h)

/-- S2: every column selection from a pick survives the transform: its
image (the transformed source with the same column name) is reachable in
the transformed graph. -/
theorem selector_survives (ns : List Node) :
    ∀ n : Node, nodeOk n = true →
      ∀ p c, (Node.selectColumn p c) ∈ allNodes n → isPick p = true →
        (Node.selectColumn (tfm ns p) c) ∈ allNodes (tfm ns n) := by
  intro n h p c hm hp
  cases n with
  | selectTable nm sch =>
      rcases mem_allNodes.mp hm with heq | ⟨ch, hch, hm2⟩
      · exact Node.noConfusion heq
      · simp [children] at hch
  | selectPatientTable nm sch =>
      rcases mem_allNodes.mp hm with heq | ⟨ch, hch, hm2⟩
      · exact Node.noConfusion heq
      · simp [children] at hch
  | value v =>
      rcases mem_allNodes.mp hm with heq | ⟨ch, hch, hm2⟩
      · exact Node.noConfusion heq
      · simp [children] at hch
  | pickWC s pos cols => simp [nodeOk] at h
  | selectColumn src c0 =>
      rcases mem_allNodes.mp hm with heq | ⟨ch, hch, hm2⟩
      · injection heq with he1 he2
        subst he1
        subst he2
        rw [tfm_selectColumn]
        exact mem_allNodes_self _
      · simp only [children, List.mem_cons, List.mem_nil_iff, or_false,
          List.mem_singleton] at hch
        rw [hch] at hm2
        have himg := selector_survives ns src
          (nodeOk_children h src (by simp [children])) p c hm2 hp
        rw [tfm_selectColumn]
        exact mem_allNodes_trans _ _ _ himg
          (mem_allNodes_of_child (by simp [children]))
  | fnNot s =>
      rcases mem_allNodes.mp hm with heq | ⟨ch, hch, hm2⟩
      · exact Node.noConfusion heq
      · simp only [children, List.mem_cons, List.mem_nil_iff, or_false,
          List.mem_singleton] at hch
        rw [hch] at hm2
        have himg := selector_survives ns s
          (nodeOk_children h s (by simp [children])) p c hm2 hp
        rw [show tfm ns (.fnNot s) = .fnNot (tfm ns s) from rfl]
        exact mem_allNodes_trans _ _ _ himg
          (mem_allNodes_of_child (by simp [children]))
  | fnIsNull s =>
      rcases mem_allNodes.mp hm with heq | ⟨ch, hch, hm2⟩
      · exact Node.noConfusion heq
      · simp only [children, List.mem_cons, List.mem_nil_iff, or_false,
          List.mem_singleton] at hch
        rw [hch] at hm2
        have himg := selector_survives ns s
          (nodeOk_children h s (by simp [children])) p c hm2 hp
        rw [show tfm ns (.fnIsNull s) = .fnIsNull (tfm ns s) from rfl]
        exact mem_allNodes_trans _ _ _ himg
          (mem_allNodes_of_child (by simp [children]))
  | filter s c1 =>
      rcases mem_allNodes.mp hm with heq | ⟨ch, hch, hm2⟩
      · exact Node.noConfusion heq
      · simp only [children, List.mem_cons, List.mem_nil_iff, or_false,
          List.mem_singleton] at hch
        rw [show tfm ns (.filter s c1) = .filter (tfm ns s) (tfm ns c1) from rfl]
        rcases hch with hche | hche
        · rw [hche] at hm2
          have himg := selector_survives ns s
            (nodeOk_children h s (by simp [children])) p c hm2 hp
          exact mem_allNodes_trans _ _ _ himg
            (mem_allNodes_of_child (by simp [children]))
        · rw [hche] at hm2
          have himg := selector_survives ns c1
            (nodeOk_children h c1 (by simp [children])) p c hm2 hp
          exact mem_allNodes_trans _ _ _ himg
            (mem_allNodes_of_child (by simp [children]))
  | sort s b =>
      rcases mem_allNodes.mp hm with heq | ⟨ch, hch, hm2⟩
      · exact Node.noConfusion heq
      · simp only [children, List.mem_cons, List.mem_nil_iff, or_false,
          List.mem_singleton] at hch
        rw [show tfm ns (.sort s b) = .sort (tfm ns s) (tfm ns b) from rfl]
        rcases hch with hche | hche
        · rw [hche] at hm2
          have himg := selector_survives ns s
            (nodeOk_children h s (by simp [children])) p c hm2 hp
          exact mem_allNodes_trans _ _ _ himg
            (mem_allNodes_of_child (by simp [children]))
        · rw [hche] at hm2
          have himg := selector_survives ns b
            (nodeOk_children h b (by simp [children])) p c hm2 hp
          exact mem_allNodes_trans _ _ _ himg
            (mem_allNodes_of_child (by simp [children]))
  | fnOr l r =>
      rcases mem_allNodes.mp hm with heq | ⟨ch, hch, hm2⟩
      · exact Node.noConfusion heq
      · simp only [children, List.mem_cons, List.mem_nil_iff, or_false,
          List.mem_singleton] at hch
        rw [show tfm ns (.fnOr l r) = .fnOr (tfm ns l) (tfm ns r) from rfl]
        rcases hch with hche | hche
        · rw [hche] at hm2
          have himg := selector_survives ns l
            (nodeOk_children h l (by simp [children])) p c hm2 hp
          exact mem_allNodes_trans _ _ _ himg
            (mem_allNodes_of_child (by simp [children]))
        · rw [hche] at hm2
          have himg := selector_survives ns r
            (nodeOk_children h r (by simp [children])) p c hm2 hp
          exact mem_allNodes_trans _ _ _ himg
            (mem_allNodes_of_child (by simp [children]))
  | fnAdd l r =>
      rcases mem_allNodes.mp hm with heq | ⟨ch, hch, hm2⟩
      · exact Node.noConfusion heq
      · simp only [children, List.mem_cons, List.mem_nil_iff, or_false,
          List.mem_singleton] at hch
        rw [show tfm ns (.fnAdd l r) = .fnAdd (tfm ns l) (tfm ns r) from rfl]
        rcases hch with hche | hche
        · rw [hche] at hm2
          have himg := selector_survives ns l
            (nodeOk_children h l (by simp [children])) p c hm2 hp
          exact mem_allNodes_trans _ _ _ himg
            (mem_allNodes_of_child (by simp [children]))
        · rw [hche] at hm2
          have himg := selector_survives ns r
            (nodeOk_children h r (by simp [children])) p c hm2 hp
          exact mem_allNodes_trans _ _ _ himg
            (mem_allNodes_of_child (by simp [children]))
  | fnTrueDivide l r =>
      rcases mem_allNodes.mp hm with heq | ⟨ch, hch, hm2⟩
      · exact Node.noConfusion heq
      · simp only [children, List.mem_cons, List.mem_nil_iff, or_false,
          List.mem_singleton] at hch
        rw [show tfm ns (.fnTrueDivide l r) =
          .fnTrueDivide (tfm ns l) (tfm ns r) from rfl]
        rcases hch with hche | hche
        · rw [hche] at hm2
          have himg := selector_survives ns l
            (nodeOk_children h l (by simp [children])) p c hm2 hp
          exact mem_allNodes_trans _ _ _ himg
            (mem_allNodes_of_child (by simp [children]))
        · rw [hche] at hm2
          have himg := selector_survives ns r
            (nodeOk_children h r (by simp [children])) p c hm2 hp
          exact mem_allNodes_trans _ _ _ himg
            (mem_allNodes_of_child (by simp [children]))
  | fnFloorDivide l r =>
      rcases mem_allNodes.mp hm with heq | ⟨ch, hch, hm2⟩
      · exact Node.noConfusion heq
      · simp only [children, List.mem_cons, List.mem_nil_iff, or_false,
          List.mem_singleton] at hch
        rw [show tfm ns (.fnFloorDivide l r) =
          .fnFloorDivide (tfm ns l) (tfm ns r) from rfl]
        rcases hch with hche | hche
        · rw [hche] at hm2
          have himg := selector_survives ns l
            (nodeOk_children h l (by simp [children])) p c hm2 hp
          exact mem_allNodes_trans _ _ _ himg
            (mem_allNodes_of_child (by simp [children]))
        · rw [hche] at hm2
          have himg := selector_survives ns r
            (nodeOk_children h r (by simp [children])) p c hm2 hp
          exact mem_allNodes_trans _ _ _ himg
            (mem_allNodes_of_child (by simp [children]))
  | caseTwo c1 v1 c2 v2 d =>
      rcases mem_allNodes.mp hm with heq | ⟨ch, hch, hm2⟩
      · exact Node.noConfusion heq
      · simp only [children, List.mem_cons, List.mem_nil_iff, or_false,
          List.mem_singleton] at hch
        rw [show tfm ns (.caseTwo c1 v1 c2 v2 d) = .caseTwo (tfm ns c1)
          (tfm ns v1) (tfm ns c2) (tfm ns v2) (tfm ns d) from rfl]
        rcases hch with hche | hche | hche | hche | hche
        · rw [hche] at hm2
          have himg := selector_survives ns c1
            (nodeOk_children h c1 (by simp [children])) p c hm2 hp
          exact mem_allNodes_trans _ _ _ himg
            (mem_allNodes_of_child (by simp [children]))
        · rw [hche] at hm2
          have himg := selector_survives ns v1
            (nodeOk_children h v1 (by simp [children])) p c hm2 hp
          exact mem_allNodes_trans _ _ _ himg
            (mem_allNodes_of_child (by simp [children]))
        · rw [hche] at hm2
          have himg := selector_survives ns c2
            (nodeOk_children h c2 (by simp [children])) p c hm2 hp
          exact mem_allNodes_trans _ _ _ himg
            (mem_allNodes_of_child (by simp [children]))
        · rw [hche] at hm2
          have himg := selector_survives ns v2
            (nodeOk_children h v2 (by simp [children])) p c hm2 hp
          exact mem_allNodes_trans _ _ _ himg
            (mem_allNodes_of_child (by simp [children]))
        · rw [hche] at hm2
          have himg := selector_survives ns d
            (nodeOk_children h d (by simp [children])) p c hm2 hp
          exact mem_allNodes_trans _ _ _ himg
            (mem_allNodes_of_child (by simp [children]))
  | pick s pos =>
      obtain ⟨hsort, hs⟩ := nodeOk_pick h
      rcases mem_allNodes.mp hm with heq | ⟨ch, hch, hm2⟩
      · exact Node.noConfusion heq
      · simp only [children, List.mem_cons, List.mem_nil_iff, or_false,
          List.mem_singleton] at hch
        rw [hch] at hm2
        rw [tfm_pick]
        have hchainfacts := nodeOk_chain s hs
        have hbaseOk : baseOk (chainBase s) = true := by
          cases s with
          | sort a b0 => exact (nodeOk_sort hs).2.2.2
          | _ => simp [isSort] at hsort
        have hsrc : Node.selectColumn (tfm ns p) c ∈
            allNodes (pickNewSource (rewriteA ns s)
              (namesFor ns (.pick s pos))) := by
          rw [pickNewSource]
          split
          · exact selector_survives ns s hs p c hm2 hp
          · have hbase_eq : chainBase (rewriteB (rewriteA ns s)) =
                tfm ns (chainBase s) := chainBase_tfm ns s
            rcases mem_allNodes_chain hm2 with hsortm | ⟨b, hb, hmb⟩ | hmbase
            · simp [isSort] at hsortm
            · have hbOk := hchainfacts.1 b hb
              have himg := selector_survives ns b hbOk.1 p c hmb hp
              rcases mem_updLast_of_mem (chainSorts (rewriteB (rewriteA ns s)))
                  (tfm ns b)
                  (by rw [show chainSorts (rewriteB (rewriteA ns s)) =
                        (chainSorts s).map (tfm ns) from chainSorts_tfm ns s]
                      exact List.mem_map.mpr ⟨b, hb, rfl⟩) with hup | hup
              · exact mem_allNodes_attachBelow_of_updLast _ hup himg
              · rcases sortByOkAt_cases hbOk.2 with ⟨c0, hbeq⟩ | hnos
                · rw [hbeq] at himg hup
                  rw [tfm_selectColumn] at himg
                  rw [tfm_selectColumn, setSource_selectColumn] at hup
                  rcases mem_allNodes.mp himg with heq2 | ⟨ch2, hch2, hm3⟩
                  · injection heq2 with he1 he2
                    have hpOk : nodeOk p = true := by
                      have h1 := nodeOk_reachable _ hbOk.1 _ hmb
                      simpa [nodeOk] using h1
                    have h2 : isPickWC (tfm ns p) = true := by
                      rw [isPickWC_tfm ns hpOk]
                      exact hp
                    have h3 : isPickWC (tfm ns (chainBase s)) = false :=
                      isPickWC_tfm_of_baseOk ns hbaseOk
                    rw [he1, h3] at h2
                    exact absurd h2 (by simp)
                  · simp only [children, List.mem_cons, List.mem_nil_iff,
                      or_false, List.mem_singleton] at hch2
                    rw [hch2] at hm3
                    apply mem_allNodes_attachBelow_of_nc
                    apply mem_allNodes_buildNewSorts
                    rw [hbase_eq]
                    exact hm3
                · rw [setSource_of_no_source
                    (by rw [hasSourceField_tfm]; exact hnos)] at hup
                  exact mem_allNodes_attachBelow_of_updLast _ hup himg
            · have himg := selector_survives ns (chainBase s)
                hchainfacts.2 p c hmbase hp
              apply mem_allNodes_attachBelow_of_nc
              apply mem_allNodes_buildNewSorts
              rw [hbase_eq]
              exact himg
        exact mem_allNodes_trans _ _ _ hsrc
          (mem_allNodes_of_child (by simp [children]))
termination_by n => sizeOf n
decreasing_by
  all_goals subst_vars
  all_goals first
    | (simp_arith
       done)
    | exact sizeOf_chain_lt_pick hb _
    | exact sizeOf_chainBase_lt_pick _ _

/-- Membership in the recorded selected-column names is exactly membership
of the column selection in the node set. -/
theorem namesFor_mem_iff {ns : List Node} {p : Node} {c : String} :
    c ∈ namesFor ns p ↔ (Node.selectColumn p c) ∈ ns := by
  rw [namesFor, mem_sortedNames, List.mem_filterMap]
  constructor
  · rintro ⟨m, hm, hf⟩
    cases m <;> simp only at hf
    case selectColumn src c2 =>
      by_cases hsp : src = p
      · rw [if_pos hsp] at hf
        injection hf with hc
        rw [hsp, hc] at hm
        exact hm
      · rw [if_neg hsp] at hf
        exact Option.noConfusion hf
    all_goals exact Option.noConfusion hf
  · intro hmem
    exact ⟨.selectColumn p c, hmem, by simp⟩

/-- Two strictly sorted string lists with the same members are equal. -/
theorem sorted_ext {l1 l2 : List String} (h1 : l1.Pairwise (· < ·))
    (h2 : l2.Pairwise (· < ·)) (hmem : ∀ x, x ∈ l1 ↔ x ∈ l2) : l1 = l2 := by
  have ha : IsAntisymm String (· < ·) :=
    ⟨fun a b hab hba => absurd hba (lt_asymm hab)⟩
  have hn1 : l1.Nodup := h1.imp fun hab => ne_of_lt hab
  have hn2 : l2.Nodup := h2.imp fun hab => ne_of_lt hab
  exact @List.eq_of_perm_of_sorted _ _ ha _ _
    ((List.perm_ext_iff_of_nodup hn1 hn2).mpr hmem) h1 h2

/-- The recorded name lists are strictly sorted. -/
theorem namesFor_pairwise (ns : List Node) (p : Node) :
    (namesFor ns p).Pairwise (· < ·) := sorted_sortedNames _

theorem flatMap_allNodes_map (ns : List Node) (vars : List (String × Node)) :
    ((vars.map fun kv => (kv.1, tfm ns kv.2)).flatMap fun kv => allNodes kv.2) =
      vars.flatMap fun kv => allNodes (tfm ns kv.2) := by
  induction vars with
  | nil => rfl
  | cons kv rest ih => simp_all

/-- The node set of the transformed variables is the transformed image of
each variable's reachable set. -/
theorem allNodesVars_apply_transforms (vars : List (String × Node)) :
    allNodesVars (apply_transforms vars) =
      vars.flatMap fun kv => allNodes (tfm (allNodesVars vars) kv.2) :=
  flatMap_allNodes_map (allNodesVars vars) vars

/-- NAMES stability: the selected-column names recorded for a pick's image
in the transformed node set are exactly the names recorded for the pick in
the original node set. -/
theorem namesFor_stable (vars : List (String × Node))
    (hok : ∀ kv ∈ vars, nodeOk kv.2 = true) (s : Node) (pos : Position) :
    namesFor (allNodesVars (apply_transforms vars))
        (tfm (allNodesVars vars) (.pick s pos)) =
      namesFor (allNodesVars vars) (.pick s pos) := by
  apply sorted_ext (namesFor_pairwise _ _) (namesFor_pairwise _ _)
  intro x
  rw [namesFor_mem_iff, namesFor_mem_iff, allNodesVars_apply_transforms,
    List.mem_flatMap, allNodesVars, List.mem_flatMap]
  constructor
  · rintro ⟨kv, hkv, hmem⟩
    have hadm := adm_tfm (allNodesVars vars) kv.2 (hok kv hkv)
      (fun m hm => by
        rw [allNodesVars, List.mem_flatMap]
        exact ⟨kv, hkv, hm⟩)
    have hcols := hadm _ hmem
    rw [tfm_pick] at hcols
    have hx : x ∈ namesFor (allNodesVars vars) (Node.pick s pos) :=
      List.mem_of_elem_eq_true hcols
    rw [namesFor_mem_iff, allNodesVars, List.mem_flatMap] at hx
    exact hx
  · rintro ⟨kv, hkv, hmem⟩
    refine ⟨kv, hkv, ?_⟩
    exact selector_survives (allNodesVars vars) kv.2 (hok kv hkv)
      (.pick s pos) x hmem rfl

/- ## The transform fixes its own images -/

theorem tfm_sort (ms : List Node) (a b : Node) :
    tfm ms (.sort a b) = .sort (tfm ms a) (tfm ms b) := rfl

theorem tfm_pickWC (ms : List Node) (x : Node) (pos : Position)
    (cols : List String) :
    tfm ms (.pickWC x pos cols) =
      .pickWC (pickNewSource (rewriteA ms x)
          (namesFor ms (.pickWC x pos cols))) pos
        (namesFor ms (.pickWC x pos cols)) := by
  simp [tfm, rewriteA, rewriteB_pickWC]

theorem filterMap_directSortName_map_tfm (ms : List Node) (l : List Node) :
    (l.map (tfm ms)).filterMap directSortName = l.filterMap directSortName := by
  induction l with
  | nil => rfl
  | cons b rest ih =>
      rw [List.map_cons, List.filterMap_cons, List.filterMap_cons,
        directSortName_tfm]
      cases directSortName b <;> simp [ih]

theorem filterMap_directSortName_newKeys (base : Node) (l : List String)
    (hnb : ∀ c ∈ l, columnType base c ≠ some ColType.bool) :
    (newKeys base l).filterMap directSortName = l := by
  induction l with
  | nil => rfl
  | cons n rest ih =>
      have hbool : (columnType base n == some ColType.bool) = false := by
        simpa using hnb n (by simp)
      cases rest with
      | nil =>
          rw [show newKeys base [n] = [make_sortable (.selectColumn base n)]
            from rfl]
          rw [make_sortable_eq, hbool]
          simp [List.filterMap, directSortName]
      | cons n' rest' =>
          rw [show newKeys base (n :: n' :: rest') =
            setSource (make_sortable (.selectColumn base n))
              (buildNewSorts base (n' :: rest')) ::
              newKeys base (n' :: rest') from rfl]
          rw [List.filterMap_cons, make_sortable_eq, hbool]
          simp only [Bool.false_eq_true, if_false, setSource_selectColumn,
            directSortName]
          rw [ih fun c hc => hnb c (by simp [hc])]

/-- The second pass fixes a freshly built stack of non-boolean tie-break
sorts whose base it fixes. -/
theorem tfm_buildNewSorts (ms : List Node) (base : Node) (l : List String)
    (hbase : tfm ms base = base)
    (hnb : ∀ c ∈ l, columnType base c ≠ some ColType.bool) :
    tfm ms (buildNewSorts base l) = buildNewSorts base l := by
  induction l with
  | nil => exact hbase
  | cons n rest ih =>
      have hbool : (columnType base n == some ColType.bool) = false := by
        simpa using hnb n (by simp)
      cases rest with
      | nil =>
          rw [show buildNewSorts base [n] =
            .sort base (make_sortable (.selectColumn base n)) from rfl]
          rw [make_sortable_eq, hbool]
          simp only [Bool.false_eq_true, if_false]
          rw [tfm_sort, tfm_selectColumn, hbase]
      | cons n' rest' =>
          rw [buildNewSorts_two, make_sortable_eq, hbool]
          simp only [Bool.false_eq_true, if_false, setSource_selectColumn]
          rw [tfm_sort, tfm_selectColumn,
            ih fun c hc => hnb c (by simp [hc])]

/-- The second pass fixes a chain reattached above a new chain, given that
it fixes every key and the new chain, and every key is either sourceless or
a direct column selection. -/
theorem tfm_attachBelow (ms : List Node) (bys : List Node) (nc : Node)
    (hkeys : ∀ b ∈ bys, tfm ms b = b ∧
      (hasSourceField b = false ∨ ∃ y c0, b = .selectColumn y c0))
    (hnc : tfm ms nc = nc) :
    tfm ms (attachBelow bys nc) = attachBelow bys nc := by
  induction bys with
  | nil => exact hnc
  | cons b rest ih =>
      cases rest with
      | nil =>
          obtain ⟨hGb, hshape⟩ := hkeys b (by simp)
          rw [show attachBelow [b] nc = .sort nc (setSource b nc) from rfl]
          rcases hshape with hnos | ⟨y, c0, hbeq⟩
          · rw [setSource_of_no_source hnos, tfm_sort, hnc, hGb]
          · rw [hbeq, setSource_selectColumn, tfm_sort, tfm_selectColumn, hnc]
      | cons b' rest' =>
          obtain ⟨hGb, _⟩ := hkeys b (by simp)
          rw [attachBelow_two, tfm_sort,
            ih fun x hx => hkeys x (by simp [hx]), hGb]

theorem pickNewSource_pos (x : Node) (cols : List String)
    (h : ((chainSorts (rewriteB x)).isEmpty ||
      (cols.filter fun c =>
        !((chainSorts (rewriteB x)).filterMap directSortName).contains
          c).isEmpty) = true) :
    pickNewSource x cols = rewriteB x := by
  rw [pickNewSource]
  split
  · rfl
  · rename_i h2
    exact absurd h h2

theorem pickNewSource_neg (x : Node) (cols : List String)
    (h : ((chainSorts (rewriteB x)).isEmpty ||
      (cols.filter fun c =>
        !((chainSorts (rewriteB x)).filterMap directSortName).contains
          c).isEmpty) = false) :
    pickNewSource x cols = attachBelow (chainSorts (rewriteB x))
      (buildNewSorts (chainBase (rewriteB x)) (cols.filter fun c =>
        !((chainSorts (rewriteB x)).filterMap directSortName).contains c)) := by
  rw [pickNewSource]
  split
  · rename_i h2
    rw [h] at h2
    exact Bool.noConfusion h2
  · rfl

/-- If the stabilised source is fixed by a second pass and its chain
triggers no further additions, the second stabilisation leaves it alone. -/
theorem pickNewSource_fix (ms : List Node) (x : Node) (cols : List String)
    (hG : rewriteB (rewriteA ms x) = x)
    (hcond : ((chainSorts x).isEmpty ||
      (cols.filter fun c =>
        !((chainSorts x).filterMap directSortName).contains c).isEmpty)
      = true) :
    pickNewSource (rewriteA ms x) cols = x := by
  rw [pickNewSource]
  split
  · exact hG
  · rename_i h2
    rw [hG] at h2
    exact absurd hcond h2

/-- Filtering out the names already present in the union of the existing
names and the first round's additions leaves nothing. -/
theorem filter_not_contains_append_nil (cols ex : List String) :
    (cols.filter fun c =>
      !((ex ++ cols.filter fun c => !ex.contains c).contains c)) = [] := by
  rw [List.filter_eq_nil_iff]
  intro a ha
  have hmem : a ∈ ex ++ cols.filter fun c => !ex.contains c := by
    by_cases hex : a ∈ ex
    · exact List.mem_append_left _ hex
    · refine List.mem_append_right _ ?_
      rw [List.mem_filter]
      refine ⟨ha, ?_⟩
      have hcf : ex.contains a = false := by
        cases hb : ex.contains a
        · rfl
        · exact absurd (List.mem_of_elem_eq_true hb) hex
      rw [hcf]
      rfl
  have hc : (ex ++ cols.filter fun c => !ex.contains c).contains a = true :=
    List.elem_eq_true_of_mem hmem
  intro hfalse
  rw [hc] at hfalse
  exact Bool.noConfusion hfalse

/-- The no-boolean-tie-break condition, unfolded at a pick. -/
theorem tieBreakTypesOk_pick {ns : List Node} {s : Node} {pos : Position}
    (h : tieBreakTypesOk ns (.pick s pos) = true) :
    ∀ c ∈ namesFor ns (.pick s pos),
      ((chainSorts s).filterMap directSortName).contains c = true ∨
      columnType (chainBase s) c ≠ some ColType.bool := by
  intro c hc
  rw [show tieBreakTypesOk ns (.pick s pos) =
    ((namesFor ns (.pick s pos)).all fun c =>
      ((chainSorts s).filterMap directSortName).contains c ||
      !(columnType (chainBase s) c == some ColType.bool)) from rfl,
    List.all_eq_true] at h
  have h2 := h c hc
  cases hcc : ((chainSorts s).filterMap directSortName).contains c with
  | true => exact Or.inl rfl
  | false =>
      right
      rw [hcc, Bool.false_or] at h2
      intro heq
      rw [heq] at h2
      simp at h2
theorem tfm_filter (ms : List Node) (a b : Node) :
    tfm ms (.filter a b) = .filter (tfm ms a) (tfm ms b) := rfl

theorem tfm_fnNot (ms : List Node) (a : Node) :
    tfm ms (.fnNot a) = .fnNot (tfm ms a) := rfl

theorem tfm_fnIsNull (ms : List Node) (a : Node) :
    tfm ms (.fnIsNull a) = .fnIsNull (tfm ms a) := rfl

theorem tfm_fnOr (ms : List Node) (a b : Node) :
    tfm ms (.fnOr a b) = .fnOr (tfm ms a) (tfm ms b) := rfl

theorem tfm_fnAdd (ms : List Node) (a b : Node) :
    tfm ms (.fnAdd a b) = .fnAdd (tfm ms a) (tfm ms b) := rfl

theorem tfm_fnTrueDivide (ms : List Node) (a b : Node) :
    tfm ms (.fnTrueDivide a b) = .fnTrueDivide (tfm ms a) (tfm ms b) := rfl

theorem tfm_fnFloorDivide (ms : List Node) (a b : Node) :
    tfm ms (.fnFloorDivide a b) = .fnFloorDivide (tfm ms a) (tfm ms b) := rfl

theorem tfm_caseTwo (ms : List Node) (c1 v1 c2 v2 d : Node) :
    tfm ms (.caseTwo c1 v1 c2 v2 d) =
      .caseTwo (tfm ms c1) (tfm ms v1) (tfm ms c2) (tfm ms v2) (tfm ms d) := rfl

/-- MAIN: a second run of both passes (over any node set `ms` that records
the same selected-column names for every transformed pick) leaves the
transformed graph unchanged, provided the graph is well-formed and no
tie-break would be added on a boolean column. -/
theorem tfm_tfm_fix (ns ms : List Node)
    (hnames : ∀ s pos, namesFor ms (tfm ns (.pick s pos)) =
      namesFor ns (.pick s pos)) :
    ∀ n : Node, nodeOk n = true →
      (∀ m ∈ allNodes n, tieBreakTypesOk ns m = true) →
      tfm ms (tfm ns n) = tfm ns n := by
  intro n h htb
  have hTbCh : ∀ ch ∈ children n, ∀ m ∈ allNodes ch,
      tieBreakTypesOk ns m = true :=
    fun ch hch m hm =>
      htb m (mem_allNodes_trans n ch m hm (mem_allNodes_of_child hch))
  cases n with
  | selectTable nm sch => rfl
  | selectPatientTable nm sch => rfl
  | value v => rfl
  | pickWC s pos cols => simp [nodeOk] at h
  | selectColumn src c =>
      rw [tfm_selectColumn, tfm_selectColumn,
        tfm_tfm_fix ns ms hnames src (nodeOk_children h src (by simp [children]))
          (hTbCh src (by simp [children]))]
  | filter s c =>
      rw [tfm_filter, tfm_filter,
        tfm_tfm_fix ns ms hnames s (nodeOk_children h s (by simp [children]))
          (hTbCh s (by simp [children])),
        tfm_tfm_fix ns ms hnames c (nodeOk_children h c (by simp [children]))
          (hTbCh c (by simp [children]))]
  | sort s b =>
      rw [tfm_sort, tfm_sort,
        tfm_tfm_fix ns ms hnames s (nodeOk_children h s (by simp [children]))
          (hTbCh s (by simp [children])),
        tfm_tfm_fix ns ms hnames b (nodeOk_children h b (by simp [children]))
          (hTbCh b (by simp [children]))]
  | fnNot s =>
      rw [tfm_fnNot, tfm_fnNot,
        tfm_tfm_fix ns ms hnames s (nodeOk_children h s (by simp [children]))
          (hTbCh s (by simp [children]))]
  | fnIsNull s =>
      rw [tfm_fnIsNull, tfm_fnIsNull,
        tfm_tfm_fix ns ms hnames s (nodeOk_children h s (by simp [children]))
          (hTbCh s (by simp [children]))]
  | fnOr l r =>
      rw [tfm_fnOr, tfm_fnOr,
        tfm_tfm_fix ns ms hnames l (nodeOk_children h l (by simp [children]))
          (hTbCh l (by simp [children])),
        tfm_tfm_fix ns ms hnames r (nodeOk_children h r (by simp [children]))
          (hTbCh r (by simp [children]))]
  | fnAdd l r =>
      rw [tfm_fnAdd, tfm_fnAdd,
        tfm_tfm_fix ns ms hnames l (nodeOk_children h l (by simp [children]))
          (hTbCh l (by simp [children])),
        tfm_tfm_fix ns ms hnames r (nodeOk_children h r (by simp [children]))
          (hTbCh r (by simp [children]))]
  | fnTrueDivide l r =>
      rw [tfm_fnTrueDivide, tfm_fnTrueDivide,
        tfm_tfm_fix ns ms hnames l (nodeOk_children h l (by simp [children]))
          (hTbCh l (by simp [children])),
        tfm_tfm_fix ns ms hnames r (nodeOk_children h r (by simp [children]))
          (hTbCh r (by simp [children]))]
  | fnFloorDivide l r =>
      rw [tfm_fnFloorDivide, tfm_fnFloorDivide,
        tfm_tfm_fix ns ms hnames l (nodeOk_children h l (by simp [children]))
          (hTbCh l (by simp [children])),
        tfm_tfm_fix ns ms hnames r (nodeOk_children h r (by simp [children]))
          (hTbCh r (by simp [children]))]
  | caseTwo c1 v1 c2 v2 d =>
      rw [tfm_caseTwo, tfm_caseTwo,
        tfm_tfm_fix ns ms hnames c1 (nodeOk_children h c1 (by simp [children]))
          (hTbCh c1 (by simp [children])),
        tfm_tfm_fix ns ms hnames v1 (nodeOk_children h v1 (by simp [children]))
          (hTbCh v1 (by simp [children])),
        tfm_tfm_fix ns ms hnames c2 (nodeOk_children h c2 (by simp [children]))
          (hTbCh c2 (by simp [children])),
        tfm_tfm_fix ns ms hnames v2 (nodeOk_children h v2 (by simp [children]))
          (hTbCh v2 (by simp [children])),
        tfm_tfm_fix ns ms hnames d (nodeOk_children h d (by simp [children]))
          (hTbCh d (by simp [children]))]
  | pick s pos =>
      obtain ⟨hsort, hs⟩ := nodeOk_pick h
      have hchainfacts := nodeOk_chain s hs
      have htbp := htb (.pick s pos) (mem_allNodes_self _)
      have hnames2 := hnames s pos
      rw [tfm_pick] at hnames2
      rw [tfm_pick, tfm_pickWC, hnames2]
      have hfix : pickNewSource
          (rewriteA ms (pickNewSource (rewriteA ns s)
            (namesFor ns (.pick s pos)))) (namesFor ns (.pick s pos)) =
          pickNewSource (rewriteA ns s) (namesFor ns (.pick s pos)) := by
        cases hcond : ((chainSorts (rewriteB (rewriteA ns s))).isEmpty ||
            ((namesFor ns (.pick s pos)).filter fun c =>
              !((chainSorts (rewriteB (rewriteA ns s))).filterMap
                directSortName).contains c).isEmpty) with
        | true =>
            rw [pickNewSource_pos _ _ hcond]
            exact pickNewSource_fix ms _ _
              (tfm_tfm_fix ns ms hnames s hs (hTbCh s (by simp [children])))
              hcond
        | false =>
            rw [pickNewSource_neg _ _ hcond]
            have hpair := Bool.or_eq_false_iff.mp hcond
            have hbysne : chainSorts (rewriteB (rewriteA ns s)) ≠ [] := by
              intro hnil
              rw [hnil] at hpair
              simp at hpair
            have hex_eq : (chainSorts (rewriteB (rewriteA ns s))).filterMap
                directSortName = (chainSorts s).filterMap directSortName := by
              rw [show chainSorts (rewriteB (rewriteA ns s)) =
                (chainSorts s).map (tfm ns) from chainSorts_tfm ns s,
                filterMap_directSortName_map_tfm]
            have hbase_eq : chainBase (rewriteB (rewriteA ns s)) =
                tfm ns (chainBase s) := chainBase_tfm ns s
            have hnonbool : ∀ c ∈ ((namesFor ns (.pick s pos)).filter fun c =>
                !((chainSorts (rewriteB (rewriteA ns s))).filterMap
                  directSortName).contains c),
                columnType (chainBase (rewriteB (rewriteA ns s))) c ≠
                  some ColType.bool := by
              intro c hc
              rw [List.mem_filter] at hc
              obtain ⟨hccols, hcnot⟩ := hc
              rcases tieBreakTypesOk_pick htbp c hccols with hcont | hnb
              · rw [hex_eq, hcont] at hcnot
                exact Bool.noConfusion hcnot
              · rw [hbase_eq, columnType_tfm]
                exact hnb
            have hkeys : ∀ b2 ∈ chainSorts (rewriteB (rewriteA ns s)),
                tfm ms b2 = b2 ∧ (hasSourceField b2 = false ∨
                  ∃ y c0, b2 = .selectColumn y c0) := by
              intro b2 hb2
              rw [show chainSorts (rewriteB (rewriteA ns s)) =
                (chainSorts s).map (tfm ns) from chainSorts_tfm ns s] at hb2
              obtain ⟨b, hb, hbimg⟩ := List.mem_map.mp hb2
              subst hbimg
              constructor
              · exact tfm_tfm_fix ns ms hnames b (hchainfacts.1 b hb).1
                  (fun m hm => htb m (mem_allNodes_trans (.pick s pos) s m
                    (mem_allNodes_trans s b m hm (mem_chainSorts_allNodes hb))
                    (mem_allNodes_of_child (by simp [children]))))
              · rcases sortByOkAt_cases (hchainfacts.1 b hb).2 with
                  ⟨c0, hbeq⟩ | hnos
                · exact Or.inr ⟨tfm ns (chainBase s), c0,
                    by rw [hbeq, tfm_selectColumn]⟩
                · exact Or.inl (by rw [hasSourceField_tfm]; exact hnos)
            apply pickNewSource_fix
            · exact tfm_attachBelow ms _ _ hkeys
                (tfm_buildNewSorts ms _ _
                  (by
                    rw [hbase_eq]
                    exact tfm_tfm_fix ns ms hnames (chainBase s) hchainfacts.2
                      (fun m hm => htb m (mem_allNodes_trans (.pick s pos) s m
                        (mem_allNodes_trans s (chainBase s) m hm
                          (chainBase_mem_allNodes s))
                        (mem_allNodes_of_child (by simp [children])))))
                  hnonbool)
            · rw [chainSorts_attachBelow _ _ hbysne,
                chainSorts_buildNewSorts _ _ (chainSorts_chainBase _),
                List.filterMap_append, filterMap_directSortName_updLast,
                filterMap_directSortName_newKeys _ _ hnonbool, hex_eq,
                filter_not_contains_append_nil]
              simp
      rw [hfix]
termination_by n => sizeOf n
decreasing_by
  all_goals subst_vars
  all_goals first
    | (simp_arith
       done)
    | exact sizeOf_chain_lt_pick hb _
    | exact sizeOf_chainBase_lt_pick _ _

theorem map_tfm_fix_aux (ns ms : List Node) (vars : List (String × Node)) :
    (∀ kv ∈ vars, tfm ms (tfm ns kv.2) = tfm ns kv.2) →
    ((vars.map fun kv => (kv.1, tfm ns kv.2)).map fun kv =>
        (kv.1, tfm ms kv.2)) =
      vars.map fun kv => (kv.1, tfm ns kv.2) := by
  induction vars with
  | nil => intro _; rfl
  | cons kv rest ih =>
      intro hfix
      simp only [List.map_cons]
      rw [hfix kv (by simp), ih fun x hx => hfix x (by simp [hx])]

/-- C2 (amended): `apply_transforms` is idempotent on every well-formed
variable map whose tie-break additions involve no boolean column: picks sit
directly on sort chains whose keys are direct column selections of the
chain's event-frame base (or sourceless expressions), and every selected
column name not already directly sorted has a non-boolean type.  (Without
the last proviso idempotence fails: see the boolean counterexample.) -/
theorem apply_transforms_idempotent (vars : List (String × Node))
    (hok : ∀ kv ∈ vars, nodeOk kv.2 = true)
    (htb : ∀ m ∈ allNodesVars vars,
      tieBreakTypesOk (allNodesVars vars) m = true) :
    apply_transforms (apply_transforms vars) = apply_transforms vars := by
  have hnames := namesFor_stable vars hok
  have hfix : ∀ kv ∈ vars,
      tfm (allNodesVars (apply_transforms vars))
        (tfm (allNodesVars vars) kv.2) = tfm (allNodesVars vars) kv.2 :=
    fun kv hkv =>
      tfm_tfm_fix (allNodesVars vars) (allNodesVars (apply_transforms vars))
        hnames kv.2 (hok kv hkv)
        (fun m hm => htb m (by
          rw [allNodesVars, List.mem_flatMap]
          exact ⟨kv, hkv, hm⟩))
  exact map_tfm_fix_aux (allNodesVars vars)
    (allNodesVars (apply_transforms vars)) vars hfix

/-- A well-formed variable map selecting the integer column `x` from the
last row of the events table sorted by `i`: no boolean tie-break arises. -/
def wVars : List (String × Node) :=
  [("v", .selectColumn (.pick (.sort exTable (.selectColumn exTable "i"))
    .last) "x")]

/-- Witness for the amended C2: the hypotheses hold of the integer-column
variable map and the transformer is idempotent on it. -/
theorem apply_transforms_idempotent_witness :
    (∀ kv ∈ wVars, nodeOk kv.2 = true) ∧
    (∀ m ∈ allNodesVars wVars,
      tieBreakTypesOk (allNodesVars wVars) m = true) ∧
    apply_transforms (apply_transforms wVars) = apply_transforms wVars :=
  ⟨by decide, by decide,
    apply_transforms_idempotent wVars (by decide) (by decide)⟩

end QM

/-! # The temporary-table scheduler (`databuilder/sqlalchemy_utils.py`)

`get_setup_and_cleanup_queries` finds the `TemporaryTable`s referenced by a
clause, walks their setup/cleanup queries breadth-first — the queue is
popped from the front and children are appended at the back, so items are
processed generation by generation in enqueue order, which is how the loop
is rendered here — tracking for every table the level of the last (hence
deepest) observation, skipping tables already seen on the current branch,
and finally emits the setup queries of the tables sorted by descending
level followed by the cleanup queries in the exact reverse table order.

Tables are identified by their index in an environment list; a query is
abstracted to the list of table ids it references (`get_referenced_tables`
builds a set, so references are deduplicated, and only ids of temporary
tables — ids inside the environment — are kept, as `get_temporary_tables`
keeps only `TemporaryTable` instances). -/

namespace Scheduler

/-- A query, abstracted to the table ids it references. -/
structure Query where
  refs : List Nat
deriving DecidableEq

/-- A temporary table: its setup and cleanup queries. -/
structure TableDef where
  setup : List Query
  cleanup : List Query
deriving DecidableEq

/-- Table definition lookup (ids outside the environment never arise from
`temps`). -/
def getDef (env : List TableDef) (t : Nat) : TableDef := env.getD t ⟨[], []⟩

/-- `get_temporary_tables`: the temporary tables referenced by a query,
deduplicated (the Python version iterates a set). -/
def temps (env : List TableDef) (q : Query) : List Nat :=
  (q.refs.filter fun t => t < env.length).dedup

/-- A queue item: `(clause, level, seen)`. -/
abbrev Item := Query × Nat × List Nat

/-- `table_levels[table] = level`: Python-dict update — an existing key
keeps its position, a new key is appended. -/
def updateLevel (m : List (Nat × Nat)) (t lv : Nat) : List (Nat × Nat) :=
  match m with
  | [] => [(t, lv)]
  | (u, l) :: rest => if u = t then (u, lv) :: rest else (u, l) :: updateLevel rest t lv

/-- Python-dict lookup. -/
def lookupLv : List (Nat × Nat) → Nat → Option Nat
  | [], _ => none
  | (u, l) :: rest, t => if u = t then some l else lookupLv rest t

/-- The tables of an item's clause that are observed (not on the current
branch's `seen` set), in reference order. -/
def obs (env : List TableDef) (sn : List Nat) (q : Query) : List Nat :=
  (temps env q).filter fun t => t ∉ sn

/-- One item's level-map updates: every observed table is assigned the
item's level. -/
def stepItem (env : List TableDef) (lv : List (Nat × Nat)) (it : Item) :
    List (Nat × Nat) :=
  (obs env it.2.2 it.1).foldl (fun m t => updateLevel m t it.2.1) lv

/-- One item's enqueued children: for each observed table, all its setup
and cleanup queries, one level deeper, with the table added to `seen`. -/
def childrenOf (env : List TableDef) (it : Item) : List Item :=
  (obs env it.2.2 it.1).flatMap fun t =>
    ((getDef env t).setup ++ (getDef env t).cleanup).map fun qq =>
      (qq, it.2.1 + 1, t :: it.2.2)

/-- Process one generation of the queue in order, returning the updated
level map and the next generation. -/
def stepGen (env : List TableDef) : List Item → List (Nat × Nat) →
    List (Nat × Nat) × List Item
  | [], lv => (lv, [])
  | it :: rest, lv =>
      let lv1 := stepItem env lv it
      let (lv2, chs) := stepGen env rest lv1
      (lv2, childrenOf env it ++ chs)

/-- The `while clauses:` loop, generation-synchronously, with explicit
fuel: `none` would mean the queue was still non-empty when the fuel ran
out. -/
def bfs (env : List TableDef) : Nat → List Item → List (Nat × Nat) →
    Option (List (Nat × Nat))
  | _, [], lv => some lv
  | 0, _ :: _, _ => none
  | fuel + 1, it :: rest, lv =>
      let s := stepGen env (it :: rest) lv
      bfs env fuel s.2 s.1

/-- Stable insertion into a list sorted by descending level (`sorted` with
`reverse=True` is stable: an element goes before later elements of equal
level). -/
def insertDesc (x : Nat × Nat) : List (Nat × Nat) → List (Nat × Nat)
  | [] => [x]
  | y :: ys => if x.2 < y.2 then y :: insertDesc x ys else x :: y :: ys

/-- Stable sort by descending level. -/
def sortDesc : List (Nat × Nat) → List (Nat × Nat)
  | [] => []
  | x :: xs => insertDesc x (sortDesc xs)

/-- `get_setup_and_cleanup_queries`: run the traversal (fuel one more than
the number of tables, which suffices), sort the levelled tables by
descending level, and emit all setup queries in that order and all cleanup
queries in the exact reverse order. -/
def get_setup_and_cleanup_queries (env : List TableDef) (clause : Query) :
    Option (List Query × List Query) :=
  (bfs env (env.length + 1) [(clause, 0, [])] []).map fun lvmap =>
    let tables := (sortDesc lvmap).map fun p => p.1
    (tables.flatMap fun t => (getDef env t).setup,
     tables.reverse.flatMap fun t => (getDef env t).cleanup)

/-- The cumulative state after `g` generations: the level map and the
generation's items. -/
def stateAt (env : List TableDef) (c0 : Query) : Nat →
    List (Nat × Nat) × List Item
  | 0 => ([], [(c0, 0, [])])
  | g + 1 => stepGen env (stateAt env c0 g).2 (stateAt env c0 g).1

/-- A queue item reachable after `g` steps: the chain of tables opened so
far (each distinct from the ones before it on its branch) ends in a
setup/cleanup query of the last opened table. -/
inductive Reach (env : List TableDef) (c0 : Query) :
    Nat → Query → List Nat → Prop
  | base : Reach env c0 0 c0 []
  | step {g : Nat} {q : Query} {sn : List Nat} {u : Nat} {qq : Query} :
      Reach env c0 g q sn → u ∈ temps env q → u ∉ sn →
      qq ∈ (getDef env u).setup ++ (getDef env u).cleanup →
      Reach env c0 (g + 1) qq (u :: sn)

/-- The spec's "the table is observed at nesting depth `d`": some branch of
the traversal, `d` tables deep, reaches a query referencing the table,
which is not yet on that branch. -/
def observedAtDepth (env : List TableDef) (c0 : Query) (t d : Nat) : Prop :=
  ∃ q sn, Reach env c0 d q sn ∧ t ∈ temps env q ∧ t ∉ sn

/- ## Level-map facts -/

def keysOf (m : List (Nat × Nat)) : List Nat := m.map fun p => p.1

theorem lookup_updateLevel (m : List (Nat × Nat)) (t lv x : Nat) :
    lookupLv (updateLevel m t lv) x =
      if x = t then some lv else lookupLv m x := by
  induction m with
  | nil =>
      by_cases hx : x = t
      · subst hx
        simp [updateLevel, lookupLv]
      · simp [updateLevel, lookupLv, hx, Ne.symm hx]
  | cons p rest ih =>
      obtain ⟨u, l⟩ := p
      by_cases hut : u = t
      · subst hut
        by_cases hx : x = u
        · subst hx
          simp [updateLevel, lookupLv]
        · simp [updateLevel, lookupLv, hx, Ne.symm hx]
      · by_cases hx : x = u
        · subst hx
          have hxt : ¬x = t := hut
          simp [updateLevel, lookupLv, hut, hxt]
        · simp only [updateLevel, if_neg hut, lookupLv, if_neg (Ne.symm hx), ih]

theorem mem_keys_updateLevel (m : List (Nat × Nat)) (t lv x : Nat) :
    x ∈ keysOf (updateLevel m t lv) ↔ x ∈ keysOf m ∨ x = t := by
  induction m with
  | nil => simp [updateLevel, keysOf]
  | cons p rest ih =>
      obtain ⟨u, l⟩ := p
      by_cases hut : u = t
      · subst hut
        rw [updateLevel, if_pos rfl]
        simp only [keysOf, List.map_cons, List.mem_cons]
        tauto
      · rw [updateLevel, if_neg hut]
        simp only [keysOf, List.map_cons, List.mem_cons] at ih ⊢
        rw [ih]
        tauto

theorem nodup_keys_updateLevel {m : List (Nat × Nat)} (t lv : Nat)
    (h : (keysOf m).Nodup) : (keysOf (updateLevel m t lv)).Nodup := by
  induction m with
  | nil => simp [updateLevel, keysOf]
  | cons p rest ih =>
      obtain ⟨u, l⟩ := p
      simp only [keysOf, List.map_cons, List.nodup_cons] at h
      by_cases hut : u = t
      · subst hut
        rw [updateLevel, if_pos rfl]
        simp only [keysOf, List.map_cons, List.nodup_cons]
        exact ⟨h.1, h.2⟩
      · rw [updateLevel, if_neg hut]
        simp only [keysOf, List.map_cons, List.nodup_cons]
        refine ⟨?_, ih h.2⟩
        intro hm
        rcases (mem_keys_updateLevel rest t lv u).mp hm with hm2 | rfl
        · exact h.1 hm2
        · exact hut rfl

theorem lookup_foldl_upd (g : Nat) (ts : List Nat) :
    ∀ (lv : List (Nat × Nat)) (x : Nat),
      lookupLv (ts.foldl (fun m t => updateLevel m t g) lv) x =
        if x ∈ ts then some g else lookupLv lv x := by
  induction ts with
  | nil => intro lv x; simp
  | cons t ts ih =>
      intro lv x
      rw [List.foldl_cons, ih, lookup_updateLevel]
      by_cases h1 : x ∈ ts <;> by_cases h2 : x = t <;>
        simp [h1, h2]

theorem mem_keys_foldl_upd (g : Nat) (ts : List Nat) :
    ∀ (lv : List (Nat × Nat)) (x : Nat),
      x ∈ keysOf (ts.foldl (fun m t => updateLevel m t g) lv) ↔
        x ∈ keysOf lv ∨ x ∈ ts := by
  induction ts with
  | nil => intro lv x; simp
  | cons t ts ih =>
      intro lv x
      rw [List.foldl_cons, ih, mem_keys_updateLevel]
      simp only [List.mem_cons]
      tauto

theorem nodup_keys_foldl_upd (g : Nat) (ts : List Nat) :
    ∀ {lv : List (Nat × Nat)}, (keysOf lv).Nodup →
      (keysOf (ts.foldl (fun m t => updateLevel m t g) lv)).Nodup := by
  induction ts with
  | nil => intro lv h; exact h
  | cons t ts ih =>
      intro lv h
      exact ih (nodup_keys_updateLevel t g h)

/- ## Generation-step facts -/

theorem stepGen_snd (env : List TableDef) :
    ∀ (gen : List Item) (lv : List (Nat × Nat)),
      (stepGen env gen lv).2 = gen.flatMap (childrenOf env) := by
  intro gen
  induction gen with
  | nil => intro lv; rfl
  | cons it rest ih => intro lv; simp [stepGen, ih]

theorem stepGen_fst (env : List TableDef) :
    ∀ (gen : List Item) (lv : List (Nat × Nat)),
      (stepGen env gen lv).1 = gen.foldl (stepItem env) lv := by
  intro gen
  induction gen with
  | nil => intro lv; rfl
  | cons it rest ih => intro lv; simp [stepGen, ih, stepItem]

/-- The tables observed while processing a generation. -/
def obsList (env : List TableDef) (gen : List Item) : List Nat :=
  gen.flatMap fun it => obs env it.2.2 it.1

theorem lookup_stepGen (env : List TableDef) (g : Nat) :
    ∀ (gen : List Item), (∀ it ∈ gen, it.2.1 = g) →
      ∀ (lv : List (Nat × Nat)) (x : Nat),
        lookupLv (stepGen env gen lv).1 x =
          if x ∈ obsList env gen then some g else lookupLv lv x := by
  intro gen
  induction gen with
  | nil => intro _ lv x; simp [stepGen, obsList]
  | cons it rest ih =>
      intro hlvl lv x
      rw [stepGen_fst, List.foldl_cons, ← stepGen_fst,
        ih (fun i hi => hlvl i (List.mem_cons_of_mem _ hi)),
        show stepItem env lv it =
          (obs env it.2.2 it.1).foldl (fun m t => updateLevel m t it.2.1) lv
          from rfl,
        hlvl it (List.mem_cons_self _ _), lookup_foldl_upd]
      rw [show obsList env (it :: rest) =
        obs env it.2.2 it.1 ++ obsList env rest from by simp [obsList]]
      by_cases h1 : x ∈ obsList env rest <;>
        by_cases h2 : x ∈ obs env it.2.2 it.1 <;>
          simp [h1, h2]

theorem nodup_keys_stepGen (env : List TableDef) :
    ∀ (gen : List Item) {lv : List (Nat × Nat)}, (keysOf lv).Nodup →
      (keysOf (stepGen env gen lv).1).Nodup := by
  intro gen
  induction gen with
  | nil => intro lv h; exact h
  | cons it rest ih =>
      intro lv h
      rw [stepGen_fst, List.foldl_cons, ← stepGen_fst]
      exact ih (nodup_keys_foldl_upd _ _ h)

theorem bfs_nil (env : List TableDef) (fuel : Nat) (lv : List (Nat × Nat)) :
    bfs env fuel [] lv = some lv := by
  cases fuel <;> rfl

theorem bfs_succ_cons (env : List TableDef) (fuel : Nat) (it : Item)
    (rest : List Item) (lv : List (Nat × Nat)) :
    bfs env (fuel + 1) (it :: rest) lv =
      bfs env fuel (stepGen env (it :: rest) lv).2
        (stepGen env (it :: rest) lv).1 := rfl

/- ## The stable descending sort -/

theorem perm_insertDesc (x : Nat × Nat) (l : List (Nat × Nat)) :
    List.Perm (insertDesc x l) (x :: l) := by
  induction l with
  | nil => rfl
  | cons y ys ih =>
      rw [insertDesc]
      split
      · exact (ih.cons y).trans (List.Perm.swap x y ys)
      · rfl

theorem perm_sortDesc (l : List (Nat × Nat)) : List.Perm (sortDesc l) l := by
  induction l with
  | nil => rfl
  | cons x xs ih => exact (perm_insertDesc x (sortDesc xs)).trans (ih.cons x)

theorem pairwise_insertDesc {x : Nat × Nat} {l : List (Nat × Nat)}
    (h : l.Pairwise fun a b => b.2 ≤ a.2) :
    (insertDesc x l).Pairwise fun a b => b.2 ≤ a.2 := by
  induction l with
  | nil => simp [insertDesc]
  | cons y ys ih =>
      rw [List.pairwise_cons] at h
      obtain ⟨hy, hys⟩ := h
      rw [insertDesc]
      split
      · rename_i hlt
        rw [List.pairwise_cons]
        refine ⟨?_, ih hys⟩
        intro a ha
        rcases List.mem_cons.mp ((perm_insertDesc x ys).mem_iff.mp ha) with
          rfl | ha'
        · omega
        · exact hy a ha'
      · rename_i hge
        rw [List.pairwise_cons]
        refine ⟨?_, List.pairwise_cons.mpr ⟨hy, hys⟩⟩
        intro a ha
        rcases List.mem_cons.mp ha with rfl | ha'
        · omega
        · have := hy a ha'
          omega

theorem pairwise_sortDesc (l : List (Nat × Nat)) :
    (sortDesc l).Pairwise fun a b => b.2 ≤ a.2 := by
  induction l with
  | nil => simp [sortDesc]
  | cons x xs ih => exact pairwise_insertDesc ih

/- ## Association lookups with distinct keys -/

theorem lookup_eq_some_of_mem :
    ∀ {m : List (Nat × Nat)}, (keysOf m).Nodup → ∀ {t l : Nat},
      (t, l) ∈ m → lookupLv m t = some l := by
  intro m
  induction m with
  | nil => intro _ t l h; simp at h
  | cons p rest ih =>
      intro hnd t l hm
      obtain ⟨u, v⟩ := p
      rw [keysOf, List.map_cons, List.nodup_cons] at hnd
      rcases List.mem_cons.mp hm with heq | hm'
      · injection heq with h1 h2
        subst h1
        subst h2
        simp [lookupLv]
      · rw [lookupLv]
        have hne : u ≠ t := by
          rintro rfl
          exact hnd.1 (List.mem_map.mpr ⟨(u, l), hm', rfl⟩)
        rw [if_neg hne]
        exact ih hnd.2 hm'

theorem mem_of_lookup_eq_some :
    ∀ {m : List (Nat × Nat)} {t l : Nat},
      lookupLv m t = some l → (t, l) ∈ m := by
  intro m
  induction m with
  | nil => intro t l h; simp [lookupLv] at h
  | cons p rest ih =>
      intro t l h
      obtain ⟨u, v⟩ := p
      rw [lookupLv] at h
      by_cases hut : u = t
      · rw [if_pos hut] at h
        injection h with h2
        subst hut
        subst h2
        exact List.mem_cons_self _ _
      · rw [if_neg hut] at h
        exact List.mem_cons_of_mem _ (ih h)

theorem mem_keys_iff_lookup {m : List (Nat × Nat)} {t : Nat} :
    t ∈ keysOf m ↔ ∃ l, lookupLv m t = some l := by
  induction m with
  | nil => simp [keysOf, lookupLv]
  | cons p rest ih =>
      obtain ⟨u, v⟩ := p
      rw [keysOf, List.map_cons, List.mem_cons]
      constructor
      · rintro (rfl | hm)
        · exact ⟨v, by simp [lookupLv]⟩
        · obtain ⟨l, hl⟩ := ih.mp hm
          by_cases hut : u = t
          · exact ⟨v, by simp [lookupLv, hut]⟩
          · exact ⟨l, by simpa [lookupLv, hut] using hl⟩
      · rintro ⟨l, hl⟩
        rw [lookupLv] at hl
        by_cases hut : u = t
        · exact Or.inl hut.symm
        · rw [if_neg hut] at hl
          exact Or.inr (ih.mpr ⟨l, hl⟩)

/- ## Generations and reachable items -/

theorem mem_obs {env : List TableDef} {sn : List Nat} {q : Query} {t : Nat} :
    t ∈ obs env sn q ↔ t ∈ temps env q ∧ t ∉ sn := by
  simp [obs]

theorem mem_childrenOf {env : List TableDef} {q : Query} {l : Nat}
    {sn : List Nat} {it : Item} :
    it ∈ childrenOf env (q, l, sn) ↔
      ∃ t, t ∈ obs env sn q ∧
        ∃ qq, qq ∈ (getDef env t).setup ++ (getDef env t).cleanup ∧
          it = (qq, l + 1, t :: sn) := by
  simp only [childrenOf, List.mem_flatMap, List.mem_map]
  constructor
  · rintro ⟨t, ht, qq, hqq, rfl⟩
    exact ⟨t, ht, qq, hqq, rfl⟩
  · rintro ⟨t, ht, qq, hqq, rfl⟩
    exact ⟨t, ht, qq, hqq, rfl⟩

theorem mem_stateAt_snd (env : List TableDef) (c0 : Query) :
    ∀ (g : Nat) (q : Query) (l : Nat) (sn : List Nat),
      ((q, l, sn) ∈ (stateAt env c0 g).2) ↔ (l = g ∧ Reach env c0 g q sn) := by
  intro g
  induction g with
  | zero =>
      intro q l sn
      simp only [stateAt, List.mem_singleton]
      constructor
      · intro h
        injection h with h1 h2
        injection h2 with h2a h2b
        subst h1
        subst h2a
        subst h2b
        exact ⟨rfl, Reach.base⟩
      · rintro ⟨rfl, hr⟩
        cases hr
        rfl
  | succ g ih =>
      intro q l sn
      rw [show (stateAt env c0 (g + 1)).2 =
        (stepGen env (stateAt env c0 g).2 (stateAt env c0 g).1).2 from rfl,
        stepGen_snd, List.mem_flatMap]
      constructor
      · rintro ⟨it, hit, hch⟩
        obtain ⟨q0, l0, sn0⟩ := it
        obtain ⟨hl0, hr0⟩ := (ih q0 l0 sn0).mp hit
        subst hl0
        rw [mem_childrenOf] at hch
        obtain ⟨t, ht, qq, hqq, heq⟩ := hch
        injection heq with e1 e2
        injection e2 with e2a e2b
        subst e1
        subst e2a
        subst e2b
        obtain ⟨htm, htn⟩ := mem_obs.mp ht
        exact ⟨rfl, Reach.step hr0 htm htn hqq⟩
      · rintro ⟨rfl, hr⟩
        cases hr with
        | step hr0 htm htn hqq =>
            rename_i q0 sn0 u
            refine ⟨(q0, g, sn0), (ih q0 g sn0).mpr ⟨rfl, hr0⟩, ?_⟩
            rw [mem_childrenOf]
            exact ⟨u, mem_obs.mpr ⟨htm, htn⟩, q, hqq, rfl⟩

theorem reach_facts {env : List TableDef} {c0 : Query} :
    ∀ {g : Nat} {q : Query} {sn : List Nat}, Reach env c0 g q sn →
      sn.length = g ∧ sn.Nodup ∧ ∀ u ∈ sn, u < env.length := by
  intro g q sn h
  induction h with
  | base => exact ⟨rfl, List.nodup_nil, by simp⟩
  | step _ htm htn _ ih =>
      obtain ⟨hlen, hnd, hbd⟩ := ih
      refine ⟨by simp [hlen], List.nodup_cons.mpr ⟨htn, hnd⟩, ?_⟩
      intro x hx
      rcases List.mem_cons.mp hx with rfl | hx'
      · have h2 := htm
        rw [temps, List.mem_dedup, List.mem_filter] at h2
        simpa using h2.2
      · exact hbd x hx'

/-- A branch can open at most one copy of each table, so its depth is
bounded by the number of tables: the self-reference of a table in its own
setup queries (and any other revisit) is cut off by the `seen` set. -/
theorem reach_le {env : List TableDef} {c0 : Query} {g : Nat} {q : Query}
    {sn : List Nat} (h : Reach env c0 g q sn) : g ≤ env.length := by
  obtain ⟨hlen, hnd, hbd⟩ := reach_facts h
  have hcard : sn.toFinset.card = sn.length := List.toFinset_card_of_nodup hnd
  have hsub : sn.toFinset ⊆ Finset.range env.length := fun x hx =>
    Finset.mem_range.mpr (hbd x (List.mem_toFinset.mp hx))
  have h2 := Finset.card_le_card hsub
  rw [hcard, Finset.card_range, hlen] at h2
  exact h2

theorem observedAtDepth_le {env : List TableDef} {c0 : Query} {t d : Nat}
    (h : observedAtDepth env c0 t d) : d ≤ env.length := by
  obtain ⟨q, sn, hr, _, _⟩ := h
  exact reach_le hr

/-- The generation after the last possible branch depth is empty: the
traversal terminates. -/
theorem gen_empty (env : List TableDef) (c0 : Query) :
    (stateAt env c0 (env.length + 1)).2 = [] := by
  by_contra hne
  obtain ⟨it, hit⟩ := List.exists_mem_of_ne_nil _ hne
  obtain ⟨q, l, sn⟩ := it
  obtain ⟨hl, hr⟩ := (mem_stateAt_snd env c0 _ q l sn).mp hit
  have := reach_le hr
  omega

theorem stateAt_stable (env : List TableDef) (c0 : Query) {g : Nat}
    (h : (stateAt env c0 g).2 = []) :
    ∀ k, stateAt env c0 (g + k) = stateAt env c0 g := by
  intro k
  induction k with
  | zero => rfl
  | succ k ih =>
      rw [show stateAt env c0 (g + (k + 1)) =
        stepGen env (stateAt env c0 (g + k)).2 (stateAt env c0 (g + k)).1
        from rfl, ih, h]
      rw [show stepGen env [] (stateAt env c0 g).1 =
        ((stateAt env c0 g).1, []) from rfl, ← h]

theorem bfs_reaches (env : List TableDef) (c0 : Query) :
    ∀ (k g : Nat), (stateAt env c0 (g + k)).2 = [] →
      bfs env k (stateAt env c0 g).2 (stateAt env c0 g).1 =
        some (stateAt env c0 (g + k)).1 := by
  intro k
  induction k with
  | zero =>
      intro g h
      simp only [Nat.add_zero] at h ⊢
      rw [h, bfs_nil]
  | succ k ih =>
      intro g h
      cases hg : (stateAt env c0 g).2 with
      | nil =>
          rw [bfs_nil, stateAt_stable env c0 hg (k + 1)]
      | cons it rest =>
          rw [bfs_succ_cons, ← hg]
          have harith : g + 1 + k = g + (k + 1) := by omega
          have h2 := ih (g + 1) (by rw [harith]; exact h)
          rw [show stepGen env (stateAt env c0 g).2 (stateAt env c0 g).1 =
            stateAt env c0 (g + 1) from rfl, h2, harith]

/- ## The final level map records the deepest observation -/

theorem lookup_stateAt_succ (env : List TableDef) (c0 : Query) (g x : Nat) :
    lookupLv (stateAt env c0 (g + 1)).1 x =
      if x ∈ obsList env (stateAt env c0 g).2 then some g
      else lookupLv (stateAt env c0 g).1 x := by
  rw [show (stateAt env c0 (g + 1)).1 =
    (stepGen env (stateAt env c0 g).2 (stateAt env c0 g).1).1 from rfl]
  exact lookup_stepGen env g _
    (fun it hit => by
      obtain ⟨q, l, sn⟩ := it
      exact ((mem_stateAt_snd env c0 g q l sn).mp hit).1) _ x

theorem mem_obsList_iff (env : List TableDef) (c0 : Query) (g t : Nat) :
    t ∈ obsList env (stateAt env c0 g).2 ↔ observedAtDepth env c0 t g := by
  rw [obsList, List.mem_flatMap, observedAtDepth]
  constructor
  · rintro ⟨it, hit, hobs⟩
    obtain ⟨q, l, sn⟩ := it
    obtain ⟨hl, hr⟩ := (mem_stateAt_snd env c0 g q l sn).mp hit
    obtain ⟨htm, htn⟩ := mem_obs.mp hobs
    exact ⟨q, sn, hr, htm, htn⟩
  · rintro ⟨q, sn, hr, htm, htn⟩
    exact ⟨(q, g, sn), (mem_stateAt_snd env c0 g q g sn).mpr ⟨rfl, hr⟩,
      mem_obs.mpr ⟨htm, htn⟩⟩

theorem lookup_stateAt_facts (env : List TableDef) (c0 : Query) :
    ∀ (g x l : Nat), lookupLv (stateAt env c0 g).1 x = some l →
      observedAtDepth env c0 x l ∧ l < g ∧
        ∀ d, d < g → observedAtDepth env c0 x d → d ≤ l := by
  intro g
  induction g with
  | zero =>
      intro x l h
      simp [stateAt, lookupLv] at h
  | succ g ih =>
      intro x l h
      rw [lookup_stateAt_succ] at h
      by_cases hx : x ∈ obsList env (stateAt env c0 g).2
      · rw [if_pos hx] at h
        injection h with h1
        subst h1
        refine ⟨(mem_obsList_iff env c0 g x).mp hx, Nat.lt_succ_self g, ?_⟩
        intro d hd _
        omega
      · rw [if_neg hx] at h
        obtain ⟨hobs, hlt, hmax⟩ := ih x l h
        refine ⟨hobs, by omega, ?_⟩
        intro d hd hobsd
        rcases Nat.lt_succ_iff_lt_or_eq.mp hd with hd' | rfl
        · exact hmax d hd' hobsd
        · exact absurd ((mem_obsList_iff env c0 d x).mpr hobsd) hx

theorem lookup_stateAt_some_of_obs (env : List TableDef) (c0 : Query) :
    ∀ (g x d : Nat), d < g → observedAtDepth env c0 x d →
      ∃ l, lookupLv (stateAt env c0 g).1 x = some l := by
  intro g
  induction g with
  | zero =>
      intro x d h
      omega
  | succ g ih =>
      intro x d hd hobs
      rw [lookup_stateAt_succ]
      by_cases hx : x ∈ obsList env (stateAt env c0 g).2
      · rw [if_pos hx]
        exact ⟨g, rfl⟩
      · rw [if_neg hx]
        rcases Nat.lt_succ_iff_lt_or_eq.mp hd with hd' | rfl
        · exact ih x d hd' hobs
        · exact absurd ((mem_obsList_iff env c0 d x).mpr hobs) hx

theorem nodup_keys_stateAt (env : List TableDef) (c0 : Query) :
    ∀ g, (keysOf (stateAt env c0 g).1).Nodup := by
  intro g
  induction g with
  | zero => simp [stateAt, keysOf]
  | succ g ih => exact nodup_keys_stepGen env _ ih

/-- C6: the scheduler terminates on every clause — in particular a table's
self-reference in its own setup queries causes neither non-termination nor
duplicate entries — and returns all setup queries grouped per table, the
tables pairwise distinct and ordered by descending greatest observation
depth (deepest first), followed by all cleanup queries grouped per table in
the exact reverse of that table order. -/
theorem scheduler_orders_by_depth (env : List TableDef) (clause : Query) :
    ∃ (tables : List Nat) (lvl : Nat → Nat),
      get_setup_and_cleanup_queries env clause =
        some (tables.flatMap fun t => (getDef env t).setup,
          tables.reverse.flatMap fun t => (getDef env t).cleanup) ∧
      tables.Nodup ∧
      (∀ t, t ∈ tables ↔ ∃ d, observedAtDepth env clause t d) ∧
      (∀ t ∈ tables, observedAtDepth env clause t (lvl t) ∧
        ∀ d, observedAtDepth env clause t d → d ≤ lvl t) ∧
      tables.Pairwise fun a b => lvl b ≤ lvl a := by
  have hbfs : bfs env (env.length + 1) [(clause, 0, [])] [] =
      some (stateAt env clause (env.length + 1)).1 := by
    have h0 := bfs_reaches env clause (env.length + 1) 0
      (by rw [Nat.zero_add]; exact gen_empty env clause)
    rw [Nat.zero_add] at h0
    exact h0
  refine ⟨(sortDesc (stateAt env clause (env.length + 1)).1).map fun p => p.1,
    fun t => (lookupLv (stateAt env clause (env.length + 1)).1 t).getD 0,
    ?_, ?_, ?_, ?_, ?_⟩
  · rw [get_setup_and_cleanup_queries, hbfs]
    rfl
  · have hnd : ((stateAt env clause (env.length + 1)).1.map fun p =>
        p.1).Nodup := nodup_keys_stateAt env clause _
    exact ((perm_sortDesc _).map fun p => p.1).nodup_iff.mpr hnd
  · intro t
    rw [((perm_sortDesc _).map fun p => p.1).mem_iff]
    rw [show ((stateAt env clause (env.length + 1)).1.map fun p => p.1) =
      keysOf (stateAt env clause (env.length + 1)).1 from rfl,
      mem_keys_iff_lookup]
    constructor
    · rintro ⟨l, hl⟩
      exact ⟨l, (lookup_stateAt_facts env clause _ t l hl).1⟩
    · rintro ⟨d, hd⟩
      exact lookup_stateAt_some_of_obs env clause _ t d
        (by have := observedAtDepth_le hd; omega) hd
  · intro t ht
    rw [((perm_sortDesc _).map fun p => p.1).mem_iff] at ht
    obtain ⟨l, hl⟩ := mem_keys_iff_lookup.mp ht
    obtain ⟨hobs, _, hmax⟩ := lookup_stateAt_facts env clause _ t l hl
    dsimp only
    rw [hl]
    simp only [Option.getD_some]
    refine ⟨hobs, ?_⟩
    intro d hd
    exact hmax d (by have := observedAtDepth_le hd; omega) hd
  · rw [List.pairwise_map]
    refine List.Pairwise.imp_of_mem ?_ (pairwise_sortDesc _)
    intro a b ha hb hle
    have hva : lookupLv (stateAt env clause (env.length + 1)).1 a.1 =
        some a.2 :=
      lookup_eq_some_of_mem (nodup_keys_stateAt env clause _)
        ((perm_sortDesc _).mem_iff.mp ha)
    have hvb : lookupLv (stateAt env clause (env.length + 1)).1 b.1 =
        some b.2 :=
      lookup_eq_some_of_mem (nodup_keys_stateAt env clause _)
        ((perm_sortDesc _).mem_iff.mp hb)
    dsimp only
    rw [hva, hvb]
    simp only [Option.getD_some]
    exact hle

end Scheduler

